import Mathlib

/-
Verification of the Specky task pipeline (VS Code extension, TypeScript).

Strings from the source are modelled as `List Char`; machine numbers as
`Nat`/`Int`/`Rat` with exact arithmetic.  Stateful service methods are
modelled by passing the relevant environment (file contents, stat results,
commit outcome) explicitly.  The mutable object graph that the task parser
builds (tasks holding `subtasks` arrays, mutated through the indentation
stack) is modelled by a flat list of entries carrying a parent reference,
from which the forest is reconstructed; the stack holds entry indices in
place of JavaScript object references, and both JavaScript `null` and
`undefined` array holes are modelled as `none` (the code only ever
distinguishes them by truthiness).
-/

namespace Specky

/-- Whitespace test for the JavaScript regexp class used by the source
(ASCII part of the \ s class: space, tab, newline, carriage return,
vertical tab, form feed). -/
def isJsWs (c : Char) : Bool :=
  c == ' ' || c == '\t' || c == '\n' || c == '\r' || c == Char.ofNat 11 || c == Char.ofNat 12

/-- Model of the JavaScript string trim: drop whitespace from both ends. -/
def jsTrim (s : List Char) : List Char :=
  ((s.dropWhile isJsWs).reverse.dropWhile isJsWs).reverse

/-- Model of the JavaScript split on a one-character separator: always
returns at least one (possibly empty) piece. -/
def splitOnChar (sep : Char) : List Char → List (List Char)
  | [] => [[]]
  | c :: rest =>
    if c == sep then [] :: splitOnChar sep rest
    else
      match splitOnChar sep rest with
      | [] => [[c]]
      | l :: ls => (c :: l) :: ls

/-- Model of the JavaScript join with a one-character separator. -/
def joinChar (sep : Char) : List (List Char) → List Char
  | [] => []
  | [l] => l
  | l :: ls => l ++ sep :: joinChar sep ls

/-- Removes the pattern from the front of the string, when it is a prefix. -/
def dropPre : List Char → List Char → Option (List Char)
  | [], s => some s
  | _ :: _, [] => none
  | p :: ps, c :: cs => if p == c then dropPre ps cs else none

/-- Model of the JavaScript substring containment test. -/
def containsSub (pat : List Char) : List Char → Bool
  | [] => (dropPre pat []).isSome
  | c :: rest => (dropPre pat (c :: rest)).isSome || containsSub pat rest

/-- Model of the JavaScript endsWith test. -/
def endsWithSfx (sfx s : List Char) : Bool :=
  (dropPre sfx.reverse s.reverse).isSome

/-! Task model, from src/types.ts and the fileManager service.  The task id
`task-N` is modelled by the number N. -/

inductive Task : Type where
  | mk : Nat → List Char → Bool → Nat → List Task → Task

def Task.id : Task → Nat
  | .mk i _ _ _ _ => i

def Task.title : Task → List Char
  | .mk _ ti _ _ _ => ti

def Task.completed : Task → Bool
  | .mk _ _ c _ _ => c

def Task.lineNumber : Task → Nat
  | .mk _ _ _ ln _ => ln

def Task.subtasks : Task → List Task
  | .mk _ _ _ _ subs => subs

/-- Line match for the checkbox regexp of parseTasksFromContent
(whitespace run, then the dash-bracket-marker-bracket-space frame, then a
nonempty title); returns the indent width, the marker and the raw title. -/
def matchCheckbox (line : List Char) : Option (Nat × Char × List Char) :=
  match line.dropWhile isJsWs with
  | '-' :: ' ' :: '[' :: m :: ']' :: ' ' :: title =>
    if (m == ' ' || m == 'x' || m == 'X') && !title.isEmpty then
      some ((line.takeWhile isJsWs).length, m, title)
    else none
  | _ => none

/-- Flat record for one parsed task: the fields of the Task object plus the
indent level and the parent reference that the source maintains through its
object graph. -/
structure TaskEntry where
  idx : Nat
  title : List Char
  completed : Bool
  lineNumber : Nat
  level : Nat
  parent : Option Nat
deriving DecidableEq, Repr

/-- Parser state: entries created so far, and the indentation stack
(parentStack in the source), holding entry indices. -/
structure ParseState where
  es : List TaskEntry
  stack : List (Option Nat)
deriving DecidableEq, Repr

/-- Fallback walk of parseTasksFromContent: scan the stack slots strictly
below the given level, from the deepest to slot 0, returning the first
non-null entry. -/
def walkDown (stack : List (Option Nat)) : Nat → Option Nat
  | 0 => none
  | j + 1 =>
    match stack.getD j none with
    | some p => some p
    | none => walkDown stack j

/-- Parent lookup of parseTasksFromContent for a nested line at indent
level k: slot k-1 when non-null, else the fallback walk. -/
def parentFor (stack : List (Option Nat)) (k : Nat) : Option Nat :=
  match stack.getD (k - 1) none with
  | some p => some p
  | none => walkDown stack (k - 1)

/-- Stack update of parseTasksFromContent: slot k is set to the new entry
and the stack is truncated (or extended with holes) to length k+1. -/
def newStackAfter (stack : List (Option Nat)) (k newIdx : Nat) : List (Option Nat) :=
  (List.range (k + 1)).map (fun j => if j == k then some newIdx else stack.getD j none)

/-- One loop iteration of parseTasksFromContent for the line with 0-based
index i. -/
def parseLine (st : ParseState) (i : Nat) (line : List Char) : ParseState :=
  match matchCheckbox line with
  | none => st
  | some (w, m, title) =>
    let k := w / 2
    let newIdx := st.es.length
    { es := st.es ++ [{ idx := newIdx, title := jsTrim title,
                        completed := m == 'x' || m == 'X',
                        lineNumber := i + 1, level := k,
                        parent := if k == 0 then none else parentFor st.stack k }],
      stack := newStackAfter st.stack k newIdx }

/-- Main loop of parseTasksFromContent over the split lines. -/
def parseLines : List (List Char) → Nat → ParseState → ParseState
  | [], _, st => st
  | l :: ls, i, st => parseLines ls (i + 1) (parseLine st i l)

/-- Initial parser state: no entries, parentStack = singleton null. -/
def initState : ParseState := { es := [], stack := [none] }

/-- Entry list produced by parsing the whole content. -/
def parseEntries (content : List Char) : List TaskEntry :=
  (parseLines (splitOnChar '\n' content) 0 initState).es

/-- Parser state after the first m lines of the content; used to state
per-line properties of the loop. -/
def stateAt (content : List Char) (m : Nat) : ParseState :=
  parseLines ((splitOnChar '\n' content).take m) 0 initState

/-- One step of the forest reconstruction: entries are folded from the last
to the first; the items of pending whose parent reference names this entry
are exactly its children (already completed subtrees, in creation order),
and the new subtree is prepended. -/
def buildStep (e : TaskEntry) (pending : List (Option Nat × Task)) :
    List (Option Nat × Task) :=
  (e.parent,
    Task.mk e.idx e.title e.completed e.lineNumber
      ((pending.filter (fun pr => pr.1 == some e.idx)).map Prod.snd))
    :: pending.filter (fun pr => !(pr.1 == some e.idx))

/-- Folds the whole entry list into parent-annotated subtrees. -/
def buildPending (es : List TaskEntry) : List (Option Nat × Task) :=
  es.foldr buildStep []

/-- Reconstructs the task forest (the tasks array of the source) from the
flat entry list: the root tasks are the entries without parent, in order. -/
def buildForest (es : List TaskEntry) : List Task :=
  ((buildPending es).filter (fun pr => pr.1 == (none : Option Nat))).map Prod.snd

/-- parseTasksFromContent (fileManager service, 0.1.1 stack version). -/
def parseTasksFromContent (content : List Char) : List Task :=
  buildForest (parseEntries content)

/-- countTasks (fileManager service): every task and subtask, recursively. -/
def countTasks : List Task → Nat
  | [] => 0
  | Task.mk _ _ _ _ subs :: rest => 1 + countTasks subs + countTasks rest

/-- countCompletedTasks (fileManager service). -/
def countCompletedTasks : List Task → Nat
  | [] => 0
  | Task.mk _ _ c _ subs :: rest =>
    (if c then 1 else 0) + countCompletedTasks subs + countCompletedTasks rest

/-- flattenTasks (chat participant): pre-order traversal, each task before
its subtasks, siblings in list order. -/
def flattenTasks : List Task → List Task
  | [] => []
  | Task.mk i ti c ln subs :: rest =>
    Task.mk i ti c ln subs :: (flattenTasks subs ++ flattenTasks rest)

/-- findTask (fileManager service): first task with the given id, searching
each task, then its subtasks, then its later siblings. -/
def findTask : List Task → Nat → Option Task
  | [], _ => none
  | Task.mk i ti c ln subs :: rest, tid =>
    if i = tid then some (Task.mk i ti c ln subs)
    else
      match findTask subs tid with
      | some f => some f
      | none => findTask rest tid

/-- findFirstIncomplete (progress tracker): first task whose completed flag
is false, checking each task before its subtasks. -/
def findFirstIncomplete : List Task → Option Task
  | [] => none
  | Task.mk i ti c ln subs :: rest =>
    if !c then some (Task.mk i ti c ln subs)
    else
      match findFirstIncomplete subs with
      | some t => some t
      | none => findFirstIncomplete rest

/-- First-occurrence replacement for the toggle regexp on completed tasks
(the bracket-x-bracket pattern, case-insensitive in x, becomes an empty
checkbox); no occurrence leaves the line unchanged. -/
def replaceMarkX : List Char → List Char
  | [] => []
  | a :: rest =>
    match rest with
    | b :: c :: rest2 =>
      if a == '[' && (b == 'x' || b == 'X') && c == ']' then
        '[' :: ' ' :: ']' :: rest2
      else a :: replaceMarkX rest
    | _ => a :: replaceMarkX rest

/-- First-occurrence replacement for the toggle regexp on incomplete tasks
(the bracket-space-bracket pattern becomes a checked box). -/
def replaceMarkSpace : List Char → List Char
  | [] => []
  | a :: rest =>
    match rest with
    | b :: c :: rest2 =>
      if a == '[' && b == ' ' && c == ']' then
        '[' :: 'x' :: ']' :: rest2
      else a :: replaceMarkSpace rest
    | _ => a :: replaceMarkSpace rest

/-- Core of toggleTask (fileManager service) once the artifact content has
been read: parse, locate the task by id, rewrite the one source line; none
means no write happens. -/
def toggleTaskContent (content : List Char) (taskId : Nat) : Option (List Char) :=
  match findTask (parseTasksFromContent content) taskId with
  | none => none
  | some t =>
    let lines := splitOnChar '\n' content
    let line := lines.getD (t.lineNumber - 1) []
    let newLine := if t.completed then replaceMarkX line else replaceMarkSpace line
    some (joinChar '\n' (lines.set (t.lineNumber - 1) newLine))

/-- toggleTask (fileManager service): the artifact read yields none when
tasks.md is unreadable; a missing or empty content returns without a write
(the falsy test of the source also catches the empty string). -/
def toggleTask (artifact : Option (List Char)) (taskId : Nat) : Option (List Char) :=
  match artifact with
  | none => none
  | some content =>
    if content.isEmpty then none else toggleTaskContent content taskId

/-- Math.round of the source, applied to the exact value of its
floating-point argument: round half toward positive infinity, as the
ECMAScript specification defines it on the number value. -/
def mathRound (q : ℚ) : ℤ := ⌊q + 1 / 2⌋

/-- Relative spacing of IEEE binary64 doubles at the low end of a binade:
two to the minus fifty-two. -/
def ulpFrac : ℚ := (2 : ℚ) ^ (-52 : ℤ)

/-- Round a scaled significand to the nearest integer, ties to the even
neighbour, as binary64 round-to-nearest does on the 53-bit significand. -/
def froundM (x : ℚ) : ℚ :=
  if x - ⌊x⌋ < 1 / 2 then (⌊x⌋ : ℚ)
  else if 1 / 2 < x - ⌊x⌋ then (⌊x⌋ : ℚ) + 1
  else if ⌊x⌋ % 2 = 0 then (⌊x⌋ : ℚ) else (⌊x⌋ : ℚ) + 1

/-- Scale a positive rational into the 53-bit significand range of the
binade given by e, round the significand, scale back. -/
def froundAux (q : ℚ) (e : ℤ) : ℚ :=
  froundM (q * (2 : ℚ) ^ ((52 : ℤ) - e)) * (2 : ℚ) ^ (e - (52 : ℤ))

/-- Round a nonnegative exact rational to the nearest IEEE binary64 double
value (ties to even), the rounding every JS arithmetic operation applies
to its exact result. The exponent here is unbounded; the progress
computation only ever forms values far inside the finite normal range
(counts stay below two to the fifty-three, quotients of positive counts
are at least their reciprocal, the product stays below 128), where this
model and binary64 agree. Negative inputs do not arise. -/
def fround64 (q : ℚ) : ℚ :=
  if 0 < q then froundAux q (Int.log 2 q) else 0

/-- The double value holding a task count (the source counts with JS
number arithmetic; below two to the fifty-three the value is exact). -/
def jsNumber (n : Nat) : ℚ := fround64 (n : ℚ)

/-- Math.round((completed / total) * 100) as the source computes it: the
division and the multiplication by 100 are each correctly rounded
binary64 operations on the operand doubles, and Math.round acts on the
exact value of the resulting double. -/
def jsPercentage (completed total : Nat) : ℤ :=
  mathRound (fround64 (fround64 (jsNumber completed / jsNumber total) * 100))

/-- FeatureProgress record (src/types.ts). -/
structure FeatureProgress where
  totalTasks : Nat
  completedTasks : Nat
  percentage : ℤ
deriving DecidableEq, Repr

/-- Core arithmetic of calculateProgress (fileManager service) over an
already parsed task forest, at binary64 semantics. -/
def calculateProgress (ts : List Task) : FeatureProgress :=
  let total := countTasks ts
  let completed := countCompletedTasks ts
  { totalTasks := total, completedTasks := completed,
    percentage := if 0 < total then jsPercentage completed total else 0 }

/-! Chat participant (src/chat/participant.ts). -/

/-- Drive-letter test of safeResolveWorkspaceFile: an ASCII letter followed
by a colon at the start of the string. -/
def isDriveStart : List Char → Bool
  | c0 :: c1 :: _ => c0.isAlpha && c1 == ':'
  | _ => false

/-- safeResolveWorkspaceFile: normalize backslashes to slashes and trim;
reject the empty string, a leading slash or tilde, any path segment equal
to dot, dot-dot or the empty segment, and a drive-letter start; otherwise
resolve (modelled as returning the path segments joined onto the workspace
root). -/
def safeResolveWorkspaceFile (relativePath : List Char) : Option (List (List Char)) :=
  let normalized := jsTrim (relativePath.map (fun c => if c == '\\' then '/' else c))
  if normalized.isEmpty then none
  else if normalized.headD ' ' == '/' || normalized.headD ' ' == '~' then none
  else
    let segments := splitOnChar '/' normalized
    if segments.any (fun s => s == ['.', '.'] || s == ['.'] || s.isEmpty) then none
    else if isDriveStart normalized then none
    else some segments

/-- Replacement test of applyCodeChanges for an existing file: the new
content is longer than 0.8 times the existing length (exact arithmetic:
5 new > 4 existing), or contains a block comment opener or an import
statement, or the path has a structured-format extension. -/
def shouldReplace (path existing newContent : List Char) : Bool :=
  decide (5 * newContent.length > 4 * existing.length)
  || containsSub ['/', '*', '*'] newContent
  || containsSub ['/', '*'] newContent
  || containsSub ("import ".toList) newContent
  || endsWithSfx (".json".toList) path
  || endsWithSfx (".yaml".toList) path
  || endsWithSfx (".yml".toList) path
  || endsWithSfx (".md".toList) path

/-- Word-character test of the JavaScript regexp class (letters, digits,
underscore). -/
def isWordCh (c : Char) : Bool := c.isAlphanum || c == '_'

/-- Declaration keywords of the merge regexps, in alternation order. -/
def declKeywords : List (List Char) :=
  [("function".toList), ("class".toList), ("const".toList), ("let".toList),
   ("var".toList), ("interface".toList), ("type".toList)]

/-- Optional token-plus-whitespace group of the merge regexps: consume the
token and a nonempty whitespace run when present, else leave the input
unchanged (no keyword starts with a letter of the optional tokens, so the
greedy group never needs backtracking). -/
def optTokenWs (tok : List Char) (s : List Char) : List Char :=
  match dropPre tok s with
  | none => s
  | some rest => if (rest.takeWhile isJsWs).isEmpty then s else rest.dropWhile isJsWs

/-- Keyword alternation of the merge regexps: no keyword is a prefix of
another, so at most one alternative applies. -/
def matchKw : List (List Char) → List Char → Option (List Char)
  | [], _ => none
  | kw :: kws, s =>
    match dropPre kw s with
    | some rest => some rest
    | none => matchKw kws s

/-- Declaration matcher of the merge regexps at one anchor: leading
whitespace, optional export and async groups, a keyword, a nonempty
whitespace run and a nonempty word run (the captured name).  The
whitespace class includes the newline, as in the source regexps. -/
def tryDeclAt (s : List Char) : Option (List Char) :=
  let s3 := optTokenWs ("async".toList) (optTokenWs ("export".toList) (s.dropWhile isJsWs))
  match matchKw declKeywords s3 with
  | none => none
  | some s4 =>
    if (s4.takeWhile isJsWs).isEmpty then none
    else
      let name := (s4.dropWhile isJsWs).takeWhile isWordCh
      if name.isEmpty then none else some name

/-- Named-declaration test of the existing-declaration regexp at one
anchor: like tryDeclAt but requiring the literal name followed by a word
boundary. -/
def tryDeclNamed (name : List Char) (s : List Char) : Bool :=
  let s3 := optTokenWs ("async".toList) (optTokenWs ("export".toList) (s.dropWhile isJsWs))
  match matchKw declKeywords s3 with
  | none => false
  | some s4 =>
    if (s4.takeWhile isJsWs).isEmpty then false
    else
      match dropPre name (s4.dropWhile isJsWs) with
      | none => false
      | some tail =>
        match tail with
        | [] => true
        | c :: _ => !isWordCh c

/-- Anchors of a multiline regexp: the whole string and every suffix that
follows a newline, in position order. -/
def lineStarts : List Char → List (List Char)
  | [] => [[]]
  | c :: rest =>
    (c :: rest) :: (if c == '\n' then lineStarts rest else (lineStarts rest).drop 1)

/-- First captured declaration name of the new code (declarationRegex with
the multiline flag): the earliest anchor whose declaration matcher
succeeds. -/
def firstDeclName (s : List Char) : Option (List Char) :=
  ((lineStarts s).filterMap tryDeclAt).head?

/-- Line index of the next top-level declaration at or after start
(endLine scan of mergeCodeChanges), defaulting to the line count. -/
def nextDeclLine (lines : List (List Char)) (start : Nat) : Nat :=
  match (lines.drop start).findIdx? (fun l => (tryDeclAt l).isSome) with
  | none => lines.length
  | some j => start + j

/-- mergeCodeChanges (chat participant): replace the matching declaration
section of the existing file by the new code, else append, else replace
wholesale. -/
def mergeCodeChanges (existing newCode : List Char) : List Char :=
  match firstDeclName newCode with
  | none => newCode
  | some name =>
    if !((lineStarts existing).any (fun t => tryDeclNamed name t)) then
      existing ++ ('\n' :: '\n' :: newCode)
    else
      let lines := splitOnChar '\n' existing
      match lines.findIdx? (fun l => tryDeclNamed name l) with
      | none => existing ++ ('\n' :: '\n' :: newCode)
      | some startLine =>
        let endLine := nextDeclLine lines (startLine + 1)
        joinChar '\n' (lines.take startLine ++ splitOnChar '\n' newCode ++ lines.drop endLine)

/-- Content written for a change to an existing file (applyCodeChanges):
wholesale replacement or heuristic merge, per shouldReplace. -/
def nextContentFor (path existing newContent : List Char) : List Char :=
  if shouldReplace path existing newContent then newContent
  else mergeCodeChanges existing newContent

/-- Run of characters satisfying p, then a required literal character;
returns the rest.  Models a greedy character-class star followed by a
literal that no class member equals, which never backtracks. -/
def skipRunThen (p : Char → Bool) (c : Char) (s : List Char) : Option (List Char) :=
  if (s.dropWhile p).head? == some c then some (s.dropWhile p).tail else none

/-- Like skipRunThen but returning the captured run as well. -/
def takeRunThen (p : Char → Bool) (c : Char) (s : List Char) :
    Option (List Char × List Char) :=
  if (s.dropWhile p).head? == some c then some (s.takeWhile p, (s.dropWhile p).tail)
  else none

/-- Earliest occurrence split: the part before the first occurrence of the
pattern, and the part after it.  Models the lazy any-character group of
the file-block regexp followed by the literal fence closer. -/
def splitAtSub (pat : List Char) : List Char → Option (List Char × List Char)
  | [] =>
    (match dropPre pat [] with
     | some rest => some ([], rest)
     | none => none)
  | c :: s =>
    match dropPre pat (c :: s) with
    | some rest => some ([], rest)
    | none =>
      match splitAtSub pat s with
      | some (pre, post) => some (c :: pre, post)
      | none => none

/-- Backtick character, kept out of literals. -/
def btick : Char := Char.ofNat 96

/-- Attempt of the file-block regexp of parseCodeChanges at one position:
four hashes, whitespace, a backtick-delimited nonempty path, the rest of
the heading line, a fence opener with an optional language word, then the
lazily captured body up to the first newline-fence closer. -/
def tryMatch (s : List Char) : Option (List Char × List Char × List Char) :=
  (dropPre ("####".toList) s).bind (fun s1 =>
  (skipRunThen isJsWs btick s1).bind (fun s2 =>
  (takeRunThen (fun ch => !(ch == btick)) btick s2).bind (fun pr =>
  if pr.1.isEmpty then none
  else
    (skipRunThen (fun ch => !(ch == '\n')) '\n' pr.2).bind (fun s4 =>
    (dropPre ("```".toList) s4).bind (fun s5 =>
    (skipRunThen isWordCh '\n' s5).bind (fun s6 =>
    (splitAtSub ('\n' :: btick :: btick :: btick :: []) s6).map (fun bp =>
      (pr.1, bp.1, bp.2))))))))

theorem dropPre_len : ∀ (p s r : List Char), dropPre p s = some r →
    r.length + p.length = s.length := by
  intro p
  induction p with
  | nil =>
    intro s r h
    simp [dropPre] at h
    simp [h]
  | cons c cs ih =>
    intro s r h
    cases s with
    | nil => simp [dropPre] at h
    | cons d ds =>
      simp only [dropPre] at h
      by_cases hc : (c == d) = true
      · rw [if_pos hc] at h
        have := ih ds r h
        simp [List.length_cons]
        omega
      · rw [if_neg hc] at h
        simp at h

theorem dropWhile_len_le (p : Char → Bool) : ∀ (s : List Char),
    (s.dropWhile p).length ≤ s.length := by
  intro s
  induction s with
  | nil => simp [List.dropWhile]
  | cons c cs ih =>
    simp only [List.dropWhile]
    by_cases hc : p c = true
    · rw [hc]
      simp
      omega
    · simp [hc]

theorem skipRunThen_len {p : Char → Bool} {c : Char} {s r : List Char}
    (h : skipRunThen p c s = some r) : r.length < s.length := by
  have hle := dropWhile_len_le p s
  unfold skipRunThen at h
  by_cases hc : ((s.dropWhile p).head? == some c) = true
  · rw [if_pos hc] at h
    simp at h
    cases hd : s.dropWhile p with
    | nil => rw [hd] at hc; simp at hc
    | cons d rest =>
      rw [hd] at h
      rw [hd] at hle
      simp at h hle
      subst h
      omega
  · rw [if_neg hc] at h
    simp at h

theorem takeRunThen_len {p : Char → Bool} {c : Char} {s run r : List Char}
    (h : takeRunThen p c s = some (run, r)) : r.length < s.length := by
  have hle := dropWhile_len_le p s
  unfold takeRunThen at h
  by_cases hc : ((s.dropWhile p).head? == some c) = true
  · rw [if_pos hc] at h
    simp at h
    obtain ⟨-, hr⟩ := h
    cases hd : s.dropWhile p with
    | nil => rw [hd] at hc; simp at hc
    | cons d rest =>
      rw [hd] at hr
      rw [hd] at hle
      simp at hr hle
      subst hr
      omega
  · rw [if_neg hc] at h
    simp at h

theorem splitAtSub_len {pat : List Char} : ∀ {s pre post : List Char},
    splitAtSub pat s = some (pre, post) → post.length ≤ s.length := by
  intro s
  induction s with
  | nil =>
    intro pre post h
    simp only [splitAtSub] at h
    cases hd : dropPre pat [] with
    | none => rw [hd] at h; simp at h
    | some rest =>
      rw [hd] at h
      simp at h
      obtain ⟨h1, h2⟩ := h
      have hlen := dropPre_len pat [] rest hd
      subst h2
      simp only [List.length_nil] at hlen ⊢
      omega
  | cons c cs ih =>
    intro pre post h
    simp only [splitAtSub] at h
    cases hd : dropPre pat (c :: cs) with
    | none =>
      rw [hd] at h
      cases hs : splitAtSub pat cs with
      | none => rw [hs] at h; simp at h
      | some pr =>
        rw [hs] at h
        cases pr with
        | mk pre2 post2 =>
          simp at h
          obtain ⟨h1, h2⟩ := h
          subst h2
          have := ih hs
          simp [List.length_cons]
          omega
    | some rest =>
      rw [hd] at h
      simp at h
      obtain ⟨h1, h2⟩ := h
      subst h2
      have hlen := dropPre_len pat (c :: cs) rest hd
      simp [List.length_cons] at hlen ⊢
      omega

theorem tryMatch_len {s path body rem : List Char}
    (h : tryMatch s = some (path, body, rem)) : rem.length < s.length := by
  unfold tryMatch at h
  simp only [Option.bind_eq_some, Option.map_eq_some'] at h
  obtain ⟨s1, h1, s2, h2, pr, h3, h4⟩ := h
  by_cases hp : pr.1.isEmpty = true
  · rw [if_pos hp] at h4
    simp at h4
  · rw [if_neg hp] at h4
    simp only [Option.bind_eq_some, Option.map_eq_some'] at h4
    obtain ⟨s4, h5, s5, h6, s6, h7, bp, h8, h9⟩ := h4
    have hrem : rem = bp.2 := by
      have := congrArg (fun t => t.2.2) h9
      simpa using this.symm
    subst hrem
    have l8 : bp.2.length ≤ s6.length := by
      have : splitAtSub ('\n' :: btick :: btick :: btick :: []) s6 = some (bp.1, bp.2) := by
        simpa using h8
      exact splitAtSub_len this
    have l7 := skipRunThen_len h7
    have l6 := dropPre_len _ _ _ h6
    have l5 := skipRunThen_len h5
    have l3pair : takeRunThen (fun ch => !(ch == btick)) btick s2 = some (pr.1, pr.2) := by
      simpa using h3
    have l3 := takeRunThen_len l3pair
    have l2 := skipRunThen_len h2
    have l1 := dropPre_len _ _ _ h1
    omega

/-- Global exec loop of parseCodeChanges: find the leftmost file-block
match, emit it, continue after its end; otherwise slide one position. -/
def scanChanges (s : List Char) : List (List Char × List Char) :=
  match h : tryMatch s with
  | some (p, b, rem) => (p, b) :: scanChanges rem
  | none =>
    match s with
    | [] => []
    | _ :: rest => scanChanges rest
termination_by s.length
decreasing_by
  · exact tryMatch_len h
  · simp

/-- parseCodeChanges (chat participant): every matched block whose trimmed
path is nonempty becomes a proposed change (path, content). -/
def parseCodeChanges (response : List Char) : List (List Char × List Char) :=
  (scanChanges response).filterMap (fun pr =>
    let fp := jsTrim pr.1
    if fp.isEmpty then none else some (fp, pr.2))

/-! Change application (applyCodeChanges).  The VS Code workspace is
modelled by an environment giving the stat result and current text of each
path and the outcome that workspace.applyEdit reports for the built
transaction. -/

structure ApplyEnv where
  hasWorkspace : Bool
  fileExists : List Char → Bool
  readFile : List Char → List Char
  commitOk : Bool

/-- One registered operation of the WorkspaceEdit transaction. -/
inductive EditOp : Type where
  | createInsert : List Char → List Char → EditOp
  | replaceAll : List Char → List Char → EditOp
deriving DecidableEq

/-- Loop body of applyCodeChanges over one proposed change: skip silently
on path rejection, else register a creation or a replacement edit and
record the path as applied. -/
def applyStep (env : ApplyEnv) (acc : List EditOp × List (List Char))
    (change : List Char × List Char) : List EditOp × List (List Char) :=
  match safeResolveWorkspaceFile change.1 with
  | none => acc
  | some _ =>
    if !(env.fileExists change.1) then
      (acc.1 ++ [EditOp.createInsert change.1 change.2], acc.2 ++ [change.1])
    else
      (acc.1 ++ [EditOp.replaceAll change.1 (nextContentFor change.1 (env.readFile change.1) change.2)],
       acc.2 ++ [change.1])

/-- applyCodeChanges (chat participant): build the transaction over all
changes, then submit it once; a failed commit reports no applied files. -/
def applyCodeChanges (env : ApplyEnv) (changes : List (List Char × List Char)) :
    List (List Char) :=
  if !env.hasWorkspace then []
  else
    let result := changes.foldl (applyStep env) ([], [])
    if result.2.isEmpty then []
    else if !env.commitOk then []
    else result.2

/-! Quality gate (src/services/qualityGate.ts).  The artifact store is
modelled by an environment with the stat results, the readable contents
and the progress record of the feature. -/

inductive Severity : Type where
  | error | warning | info
deriving DecidableEq, Repr

structure QualityCheck where
  name : List Char
  passed : Bool
  message : List Char
  severity : Severity
deriving DecidableEq, Repr

structure QualityGateResult where
  passed : Bool
  checks : List QualityCheck
  summary : List Char
deriving DecidableEq, Repr

structure GateEnv where
  featureFound : Bool
  specExists : Bool
  planExists : Bool
  tasksExists : Bool
  readSpec : Option (List Char)
  readPlan : Option (List Char)
  totalTasks : Nat
  completedTasks : Nat
  percentage : Int

def checkSpecExists (env : GateEnv) : QualityCheck :=
  { name := ("Specification Exists".toList), passed := env.specExists,
    message := if env.specExists then ("spec.md found".toList)
               else ("Missing spec.md - run /specify first".toList),
    severity := Severity.error }

def checkPlanExists (env : GateEnv) : QualityCheck :=
  { name := ("Plan Exists".toList), passed := env.planExists,
    message := if env.planExists then ("plan.md found".toList)
               else ("Missing plan.md - run /plan first".toList),
    severity := Severity.error }

def checkTasksExist (env : GateEnv) : QualityCheck :=
  { name := ("Tasks Exist".toList), passed := env.tasksExists,
    message := if env.tasksExists then ("tasks.md found".toList)
               else ("Missing tasks.md - run /tasks first".toList),
    severity := Severity.error }

/-- Join with a multi-character separator (the comma-space join of the
missing-sections message). -/
def joinSep (sep : List Char) : List (List Char) → List Char
  | [] => []
  | [l] => l
  | l :: ls => l ++ sep ++ joinSep sep ls

def requiredSections : List (List Char) :=
  [("## Problem Statement".toList), ("## Functional Requirements".toList),
   ("## Error Scenarios".toList)]

def toLowerL (s : List Char) : List Char := s.map Char.toLower

def checkSpecCompleteness (env : GateEnv) : QualityCheck :=
  if !env.specExists then
    { name := ("Specification Complete".toList), passed := false,
      message := ("Cannot check - spec.md missing".toList), severity := Severity.info }
  else
    match env.readSpec with
    | none =>
      { name := ("Specification Complete".toList), passed := false,
        message := ("Could not read spec.md".toList), severity := Severity.warning }
    | some content =>
      if content.isEmpty then
        { name := ("Specification Complete".toList), passed := false,
          message := ("Could not read spec.md".toList), severity := Severity.warning }
      else
        let missing := requiredSections.filter
          (fun sec => !(containsSub (toLowerL sec) (toLowerL content)))
        if !missing.isEmpty then
          { name := ("Specification Complete".toList), passed := false,
            message := ("Missing sections: ".toList) ++ joinSep (", ".toList) missing,
            severity := Severity.warning }
        else if containsSub ("TODO".toList) content || containsSub ("TBD".toList) content then
          { name := ("Specification Complete".toList), passed := false,
            message := ("Spec contains TODO/TBD markers".toList), severity := Severity.warning }
        else
          { name := ("Specification Complete".toList), passed := true,
            message := ("All required sections present".toList), severity := Severity.info }

def checkPlanCompleteness (env : GateEnv) : QualityCheck :=
  if !env.planExists then
    { name := ("Plan Complete".toList), passed := false,
      message := ("Cannot check - plan.md missing".toList), severity := Severity.info }
  else
    match env.readPlan with
    | none =>
      { name := ("Plan Complete".toList), passed := false,
        message := ("Could not read plan.md".toList), severity := Severity.warning }
    | some content =>
      if content.isEmpty then
        { name := ("Plan Complete".toList), passed := false,
          message := ("Could not read plan.md".toList), severity := Severity.warning }
      else if content.length < 500 then
        { name := ("Plan Complete".toList), passed := false,
          message := ("Plan seems too short - consider adding more detail".toList),
          severity := Severity.warning }
      else
        { name := ("Plan Complete".toList), passed := true,
          message := ("Plan has sufficient detail".toList), severity := Severity.info }

def checkTasksProgress (env : GateEnv) : QualityCheck :=
  if env.totalTasks = 0 then
    { name := ("Tasks Defined".toList), passed := false,
      message := ("No tasks found in tasks.md".toList), severity := Severity.warning }
  else
    { name := ("Tasks Progress".toList), passed := true,
      message := (toString env.completedTasks).toList ++ ('/' :: (toString env.totalTasks).toList)
        ++ (" tasks complete (".toList) ++ (toString env.percentage).toList ++ ("%)".toList),
      severity := Severity.info }

/-- validateForImplementation (quality gate service). -/
def validateForImplementation (env : GateEnv) (featureId : List Char) : QualityGateResult :=
  if !env.featureFound then
    { passed := false,
      checks := [{ name := ("Feature Exists".toList), passed := false,
                   message := ("Feature \"".toList) ++ featureId ++ ("\" not found".toList),
                   severity := Severity.error }],
      summary := ("Feature not found".toList) }
  else
    let checks := [checkSpecExists env, checkPlanExists env, checkTasksExist env,
                   checkSpecCompleteness env, checkPlanCompleteness env, checkTasksProgress env]
    let errors := checks.filter (fun c => c.severity == Severity.error && !c.passed)
    let warnings := checks.filter (fun c => c.severity == Severity.warning && !c.passed)
    let passed := errors.length == 0
    { passed := passed,
      checks := checks,
      summary :=
        if passed && warnings.length == 0 then
          ("✅ All quality gates passed. Ready for implementation.".toList)
        else if passed then
          ("⚠️ Ready with ".toList) ++ (toString warnings.length).toList ++ (" warning(s)".toList)
        else
          ("❌ ".toList) ++ (toString errors.length).toList
            ++ (" error(s) must be resolved before implementation".toList) }

/-! Claim C3: atomic apply. -/

/-- Claim C3: for every change set, if the underlying workspace-edit commit
reports failure, applyCodeChanges returns an empty applied-file list, never
a partial list of the changes registered in the transaction. -/
theorem applyCodeChanges_commit_failure_empty (env : ApplyEnv)
    (changes : List (List Char × List Char)) (h : env.commitOk = false) :
    applyCodeChanges env changes = [] := by
  unfold applyCodeChanges
  by_cases hw : env.hasWorkspace = true
  · by_cases he : (changes.foldl (applyStep env) ([], [])).2.isEmpty = true
    · simp [hw, he]
    · simp [hw, he, h]
  · simp [Bool.eq_false_iff.mpr hw]

/-- Witness for C3: a concrete environment whose commit fails, with one
well-formed change, yields no applied files. -/
theorem applyCodeChanges_commit_failure_empty_witness :
    (ApplyEnv.mk true (fun _ => false) (fun _ => []) false).commitOk = false
    ∧ applyCodeChanges (ApplyEnv.mk true (fun _ => false) (fun _ => []) false)
        [(("a.ts".toList), ("x".toList))] = [] :=
  ⟨rfl, applyCodeChanges_commit_failure_empty _ _ rfl⟩

/-! Claim C8: quality gate verdict. -/

/-- Claim C8: for every feature (environment), the gate result is passed
exactly when no check in the produced list has error severity together
with a false passed flag; warning and info checks never block. -/
theorem validateForImplementation_passed_iff (env : GateEnv) (fid : List Char) :
    (validateForImplementation env fid).passed = true ↔
      ∀ c ∈ (validateForImplementation env fid).checks,
        ¬(c.severity = Severity.error ∧ c.passed = false) := by
  unfold validateForImplementation
  by_cases hf : env.featureFound = true
  · simp only [hf, Bool.not_true, Bool.false_eq_true, if_false]
    constructor
    · intro hp c hc
      rw [beq_iff_eq, List.length_eq_zero, List.filter_eq_nil_iff] at hp
      have := hp c hc
      intro ⟨hsev, hpass⟩
      apply this
      simp [hsev, hpass]
    · intro hall
      rw [beq_iff_eq, List.length_eq_zero, List.filter_eq_nil_iff]
      intro c hc
      have := hall c hc
      intro hcontra
      apply this
      simp only [Bool.and_eq_true, beq_iff_eq, Bool.not_eq_true'] at hcontra
      exact ⟨hcontra.1, hcontra.2⟩
  · simp [Bool.eq_false_iff.mpr hf, Severity.error]

/-! Claim C6: merge strategy selection. -/

theorem dropPre_append_isSome (p q : List Char) : ∀ (s : List Char),
    (dropPre (p ++ q) s).isSome = true → (dropPre p s).isSome = true := by
  induction p with
  | nil => intro s _; simp [dropPre]
  | cons c cs ih =>
    intro s h
    cases s with
    | nil => simp [dropPre] at h
    | cons d ds =>
      simp only [List.cons_append, dropPre] at h ⊢
      by_cases hc : (c == d) = true
      · rw [if_pos hc] at h ⊢
        exact ih ds h
      · rw [if_neg hc] at h
        simp at h

theorem containsSub_append (p q : List Char) : ∀ (s : List Char),
    containsSub (p ++ q) s = true → containsSub p s = true := by
  intro s
  induction s with
  | nil =>
    intro h
    simp only [containsSub] at h ⊢
    exact dropPre_append_isSome p q [] h
  | cons c rest ih =>
    intro h
    simp only [containsSub, Bool.or_eq_true] at h ⊢
    rcases h with h | h
    · exact Or.inl (dropPre_append_isSome p q (c :: rest) h)
    · exact Or.inr (ih h)

/-- Replacement condition as the claim states it (C6): the new content
longer than 80 percent of the existing content, a block comment opener,
an import statement, or a structured-format extension. -/
def claimReplaceCond (path existing newContent : List Char) : Bool :=
  decide (5 * newContent.length > 4 * existing.length)
  || containsSub ['/', '*'] newContent
  || containsSub ("import ".toList) newContent
  || endsWithSfx (".json".toList) path
  || endsWithSfx (".yaml".toList) path
  || endsWithSfx (".yml".toList) path
  || endsWithSfx (".md".toList) path

/-- Claim C6: full replacement is chosen exactly under the claimed
condition (the redundant doc-comment disjunct of the source is absorbed by
the block comment opener), and otherwise the heuristic merge is
attempted. -/
theorem shouldReplace_merge_selection (path existing newContent : List Char) :
    shouldReplace path existing newContent = claimReplaceCond path existing newContent
    ∧ nextContentFor path existing newContent =
        (if claimReplaceCond path existing newContent then newContent
         else mergeCodeChanges existing newContent) := by
  have key : shouldReplace path existing newContent = claimReplaceCond path existing newContent := by
    unfold shouldReplace claimReplaceCond
    by_cases h3 : containsSub ['/', '*', '*'] newContent = true
    · have h2 : containsSub ['/', '*'] newContent = true := by
        have : ('/' :: '*' :: '*' :: []) = ['/', '*'] ++ ['*'] := rfl
        rw [this] at h3
        exact containsSub_append ['/', '*'] ['*'] newContent h3
      simp [h3, h2]
    · simp [Bool.eq_false_iff.mpr h3]
  refine ⟨key, ?_⟩
  unfold nextContentFor
  rw [key]

/-! Claim C2: path-rejection completeness.  The claim as stated is false:
containment of the two-dot substring alone does not force rejection, only a
whole path segment equal to dot-dot does. -/

/-- Counterexample for C2: the path a..b contains the two-dot substring yet
the sanitizer resolves it. -/
theorem safeResolve_dotdot_counterexample :
    containsSub ("..".toList) ("a..b".toList) = true
    ∧ safeResolveWorkspaceFile ("a..b".toList) ≠ none := by
  decide

/-- Amended claim C2: every input that, after normalizing backslashes and
trimming, starts with a slash or a tilde, or starts with a drive-letter
prefix, or has a whole path segment equal to dot-dot, is rejected. -/
theorem safeResolveWorkspaceFile_rejects (s : List Char)
    (h : (jsTrim (s.map (fun c => if c == '\\' then '/' else c))).headD ' ' = '/'
       ∨ (jsTrim (s.map (fun c => if c == '\\' then '/' else c))).headD ' ' = '~'
       ∨ isDriveStart (jsTrim (s.map (fun c => if c == '\\' then '/' else c))) = true
       ∨ ('.' :: '.' :: []) ∈ splitOnChar '/' (jsTrim (s.map (fun c => if c == '\\' then '/' else c)))) :
    safeResolveWorkspaceFile s = none := by
  unfold safeResolveWorkspaceFile
  set n := jsTrim (s.map (fun c => if c == '\\' then '/' else c)) with hn
  by_cases he : n.isEmpty = true
  · rw [if_pos he]
  · rw [if_neg he]
    by_cases hh : (n.headD ' ' == '/' || n.headD ' ' == '~') = true
    · rw [if_pos hh]
    · rw [if_neg hh]
      by_cases hseg : ((splitOnChar '/' n).any
          (fun t => t == ['.', '.'] || t == ['.'] || t.isEmpty)) = true
      · rw [if_pos hseg]
      · rw [if_neg hseg]
        have hd : isDriveStart n = true := by
          rcases h with h1 | h2 | h3 | h4
          · exact absurd (by rw [h1]; simp) hh
          · exact absurd (by rw [h2]; simp) hh
          · exact h3
          · exfalso
            apply hseg
            rw [List.any_eq_true]
            exact ⟨('.' :: '.' :: []), h4, by simp⟩
        rw [if_pos hd]

/-- Witness for the amended C2 at a concrete drive-letter input with a
backslash separator. -/
theorem safeResolveWorkspaceFile_rejects_witness :
    ((jsTrim (("C:\\x".toList).map (fun c => if c == '\\' then '/' else c))).headD ' ' = '/'
       ∨ (jsTrim (("C:\\x".toList).map (fun c => if c == '\\' then '/' else c))).headD ' ' = '~'
       ∨ isDriveStart (jsTrim (("C:\\x".toList).map (fun c => if c == '\\' then '/' else c))) = true
       ∨ ('.' :: '.' :: []) ∈ splitOnChar '/'
           (jsTrim (("C:\\x".toList).map (fun c => if c == '\\' then '/' else c))))
    ∧ safeResolveWorkspaceFile ("C:\\x".toList) = none :=
  ⟨by decide, safeResolveWorkspaceFile_rejects _ (by decide)⟩

/-! Claim C7: change extraction.  The claim as stated quantifies over every
text containing the example block and asserts exactly one extracted change;
a text containing the block twice yields two changes, so the claim is
corrected to the text of the block itself. -/

theorem scanChanges_cons_match {s p b rem : List Char}
    (h : tryMatch s = some (p, b, rem)) :
    scanChanges s = (p, b) :: scanChanges rem := by
  rw [scanChanges]
  split
  · next p2 b2 rem2 heq =>
    rw [h] at heq
    simp at heq
    obtain ⟨h1, h2, h3⟩ := heq
    subst h1; subst h2; subst h3
    rfl
  · next heq =>
    rw [h] at heq
    simp at heq

theorem scanChanges_skip {c : Char} {rest : List Char}
    (h : tryMatch (c :: rest) = none) :
    scanChanges (c :: rest) = scanChanges rest := by
  rw [scanChanges]
  split
  · next p2 b2 rem2 heq =>
    rw [h] at heq
    simp at heq
  · rfl

theorem scanChanges_nil : scanChanges [] = [] := by
  rw [scanChanges]
  split
  · next p2 b2 rem2 heq =>
    have : tryMatch ([] : List Char) = none := by decide
    rw [this] at heq
    simp at heq
  · rfl

/-- Example oracle text of the claim: the heading line for src/a.ts
immediately followed by a typescript fence around one export line. -/
def c7text : List Char :=
  ("#### `src/a.ts` (new)\n```typescript\nexport const x = 1;\n```").toList

/-- Absence of the file-block pattern: no suffix of the text matches. -/
def noBlock : List Char → Bool
  | [] => (tryMatch []).isNone
  | c :: rest => (tryMatch (c :: rest)).isNone && noBlock rest

theorem noBlock_scanChanges : ∀ (s : List Char), noBlock s = true → scanChanges s = [] := by
  have key : ∀ (n : Nat) (s : List Char), s.length ≤ n → noBlock s = true →
      scanChanges s = [] := by
    intro n
    induction n with
    | zero =>
      intro s hlen _
      have : s = [] := by
        cases s with
        | nil => rfl
        | cons c rest => simp at hlen
      subst this
      exact scanChanges_nil
    | succ n ih =>
      intro s hlen hnb
      cases s with
      | nil => exact scanChanges_nil
      | cons c rest =>
        unfold noBlock at hnb
        simp only [Bool.and_eq_true, Option.isNone_iff_eq_none] at hnb
        rw [scanChanges_skip hnb.1]
        apply ih
        · simp at hlen
          omega
        · exact hnb.2
  intro s
  exact key s.length s le_rfl

/-- Counterexample for C7: a text consisting of the example block twice
contains the heading-plus-fence block, but the extractor yields two
proposed changes, not exactly one. -/
theorem parseCodeChanges_two_blocks_counterexample :
    containsSub c7text (c7text ++ '\n' :: c7text) = true
    ∧ parseCodeChanges (c7text ++ '\n' :: c7text) =
        [(("src/a.ts".toList), ("export const x = 1;".toList)),
         (("src/a.ts".toList), ("export const x = 1;".toList))]
    ∧ parseCodeChanges (c7text ++ '\n' :: c7text) ≠
        [(("src/a.ts".toList), ("export const x = 1;".toList))] := by
  have heval : parseCodeChanges (c7text ++ '\n' :: c7text) =
      [(("src/a.ts".toList), ("export const x = 1;".toList)),
       (("src/a.ts".toList), ("export const x = 1;".toList))] := by
    unfold parseCodeChanges
    rw [@scanChanges_cons_match (c7text ++ '\n' :: c7text) ("src/a.ts".toList)
      ("export const x = 1;".toList) ('\n' :: c7text) (by decide)]
    rw [scanChanges_skip (by decide)]
    rw [@scanChanges_cons_match c7text ("src/a.ts".toList)
      ("export const x = 1;".toList) [] (by decide)]
    rw [scanChanges_nil]
    decide
  refine ⟨by decide, heval, ?_⟩
  rw [heval]
  decide

/-- Amended claim C7: the text consisting of the example heading line
immediately followed by the example fenced block yields exactly one
proposed change, with path src/a.ts and the fence body verbatim; and a
text in which the file-block pattern matches at no position yields the
empty change set. -/
theorem parseCodeChanges_example :
    parseCodeChanges c7text = [(("src/a.ts".toList), ("export const x = 1;".toList))]
    ∧ ∀ (s : List Char), noBlock s = true → parseCodeChanges s = [] := by
  constructor
  · unfold parseCodeChanges
    rw [@scanChanges_cons_match c7text ("src/a.ts".toList)
      ("export const x = 1;".toList) [] (by decide)]
    rw [scanChanges_nil]
    decide
  · intro s hs
    unfold parseCodeChanges
    rw [noBlock_scanChanges s hs]
    rfl

/-- Witness for the amended C7: a plain-prose text has no file block and
yields no changes. -/
theorem parseCodeChanges_example_witness :
    noBlock ("no file blocks here".toList) = true
    ∧ parseCodeChanges ("no file blocks here".toList) = [] :=
  ⟨by decide, parseCodeChanges_example.2 _ (by decide)⟩

/-! Structural induction principle for the nested task forests. -/

theorem taskList_ind (P : List Task → Prop) (h0 : P [])
    (h1 : ∀ i ti c ln subs rest, P subs → P rest → P (Task.mk i ti c ln subs :: rest)) :
    ∀ ts, P ts := by
  have key : ∀ n ts, sizeOf ts ≤ n → P ts := by
    intro n
    induction n with
    | zero =>
      intro ts h
      cases ts with
      | nil => exact h0
      | cons t rest => simp at h
    | succ n ih =>
      intro ts h
      cases ts with
      | nil => exact h0
      | cons t rest =>
        cases t with
        | mk i ti c ln subs =>
          apply h1
          · apply ih
            simp at h
            omega
          · apply ih
            simp at h
            omega
  intro ts
  exact key (sizeOf ts) ts le_rfl

/-! Claim C5: counting correctness and the binary64 percentage. -/

theorem countCompletedTasks_le (ts : List Task) :
    countCompletedTasks ts ≤ countTasks ts := by
  induction ts using taskList_ind with
  | h0 => simp [countTasks, countCompletedTasks]
  | h1 i ti c ln subs rest ihs ihr =>
    simp only [countTasks, countCompletedTasks]
    by_cases hc : c = true
    · simp [hc]
      omega
    · simp [hc]
      omega

theorem froundM_eq_of_near (x : ℚ) (m : ℤ) (hm : |x - (m : ℚ)| < 1 / 2) :
    froundM x = (m : ℚ) := by
  rw [abs_sub_lt_iff] at hm
  obtain ⟨hm1, hm2⟩ := hm
  by_cases hxm : (m : ℚ) ≤ x
  · have hfl : ⌊x⌋ = m := by
      rw [Int.floor_eq_iff]
      exact ⟨hxm, by linarith⟩
    unfold froundM
    rw [hfl, if_pos (by linarith : x - ((m : ℤ) : ℚ) < 1 / 2)]
  · push_neg at hxm
    have hfl : ⌊x⌋ = m - 1 := by
      rw [Int.floor_eq_iff]
      constructor
      · push_cast
        linarith
      · push_cast
        linarith
    have hc1 : ¬ (x - ((m - 1 : ℤ) : ℚ) < 1 / 2) := by push_cast; linarith
    have hc2 : (1 : ℚ) / 2 < x - ((m - 1 : ℤ) : ℚ) := by push_cast; linarith
    unfold froundM
    rw [hfl, if_neg hc1, if_pos hc2]
    push_cast
    ring

theorem fround64_eq_near (q : ℚ) (e m : ℤ) (hq : 0 < q)
    (h1 : (2 : ℚ) ^ e ≤ q) (h2 : q < (2 : ℚ) ^ (e + 1))
    (hm : |q * (2 : ℚ) ^ ((52 : ℤ) - e) - (m : ℚ)| < 1 / 2) :
    fround64 q = (m : ℚ) * (2 : ℚ) ^ (e - (52 : ℤ)) := by
  have he : Int.log 2 q = e := by
    have hle : e ≤ Int.log 2 q := (Int.zpow_le_iff_le_log (by norm_num) hq).mp h1
    have hlt : Int.log 2 q < e + 1 := (Int.lt_zpow_iff_log_lt (by norm_num) hq).mp h2
    omega
  unfold fround64
  rw [if_pos hq, he]
  unfold froundAux
  rw [froundM_eq_of_near _ m hm]

theorem froundM_close (x : ℚ) : x - 1 ≤ froundM x ∧ froundM x ≤ x + 1 := by
  have h1 : ((⌊x⌋ : ℤ) : ℚ) ≤ x := Int.floor_le x
  have h2 : x < ⌊x⌋ + 1 := Int.lt_floor_add_one x
  unfold froundM
  split_ifs <;> constructor <;> linarith

theorem fround64_bounds (q : ℚ) (hq : 0 < q) :
    q * (1 - ulpFrac) ≤ fround64 q ∧ fround64 q ≤ q * (1 + ulpFrac) := by
  have htwo : (2 : ℚ) ≠ 0 := by norm_num
  unfold fround64
  rw [if_pos hq]
  unfold froundAux
  set e := Int.log 2 q with hedef
  set x := q * (2 : ℚ) ^ ((52 : ℤ) - e) with hxdef
  have hp2 : (0 : ℚ) < (2 : ℚ) ^ (e - (52 : ℤ)) := by positivity
  have hqx : x * (2 : ℚ) ^ (e - (52 : ℤ)) = q := by
    rw [hxdef, mul_assoc, ← zpow_add₀ htwo]
    norm_num
  have hle : (2 : ℚ) ^ e ≤ q := Int.zpow_log_le_self (by norm_num) hq
  have hsplit : (2 : ℚ) ^ (e - (52 : ℤ)) = (2 : ℚ) ^ e * ulpFrac := by
    rw [ulpFrac, ← zpow_add₀ htwo]
    congr 1
  have hupos : (0 : ℚ) < ulpFrac := by rw [ulpFrac]; positivity
  have hulp : (2 : ℚ) ^ (e - (52 : ℤ)) ≤ q * ulpFrac := by
    rw [hsplit]
    exact mul_le_mul_of_nonneg_right hle (le_of_lt hupos)
  obtain ⟨hm1, hm2⟩ := froundM_close x
  constructor
  · have hs := mul_le_mul_of_nonneg_right hm1 (le_of_lt hp2)
    nlinarith [hs, hqx, hulp]
  · have hs := mul_le_mul_of_nonneg_right hm2 (le_of_lt hp2)
    nlinarith [hs, hqx, hulp]

theorem fround64_pos (q : ℚ) (hq : 0 < q) : 0 < fround64 q := by
  have h := (fround64_bounds q hq).1
  have h1u : (0 : ℚ) < 1 - ulpFrac := by norm_num [ulpFrac]
  nlinarith [h, mul_pos hq h1u]

theorem mathRound_close (x y : ℚ) (h : |x - y| ≤ 1 / 2) :
    |mathRound x - mathRound y| ≤ 1 := by
  rw [abs_sub_le_iff] at h
  unfold mathRound
  rw [abs_sub_le_iff]
  constructor
  · have hxy : x + 1 / 2 ≤ (y + 1 / 2) + 1 := by linarith [h.1]
    have hf := Int.floor_le_floor hxy
    rw [Int.floor_add_one] at hf
    omega
  · have hyx : y + 1 / 2 ≤ (x + 1 / 2) + 1 := by linarith [h.2]
    have hf := Int.floor_le_floor hyx
    rw [Int.floor_add_one] at hf
    omega

theorem jsQuotient_close (c t : Nat) (ht : 0 < t) (hct : c ≤ t) :
    |fround64 (fround64 (jsNumber c / jsNumber t) * 100) - 100 * (c : ℚ) / (t : ℚ)| ≤ 1 / 2 := by
  simp only [jsNumber]
  by_cases hc : c = 0
  · subst hc
    have hf0 : fround64 (((0 : ℕ) : ℚ)) = 0 := by
      unfold fround64
      norm_num
    rw [hf0, zero_div]
    have hf1 : fround64 0 = 0 := by
      unfold fround64
      norm_num
    rw [hf1, zero_mul, hf1]
    norm_num
  · have hc1 : 1 ≤ c := Nat.one_le_iff_ne_zero.mpr hc
    have ha0 : (0 : ℚ) < (c : ℚ) := by exact_mod_cast hc1
    have hb0 : (0 : ℚ) < (t : ℚ) := by exact_mod_cast ht
    have hab : (c : ℚ) ≤ (t : ℚ) := by exact_mod_cast hct
    have h1u : (0 : ℚ) < 1 - ulpFrac := by norm_num [ulpFrac]
    have h1u2 : (0 : ℚ) < 1 + ulpFrac := by norm_num [ulpFrac]
    obtain ⟨hA1, hA2⟩ := fround64_bounds (c : ℚ) ha0
    obtain ⟨hB1, hB2⟩ := fround64_bounds (t : ℚ) hb0
    have hq1pos : 0 < fround64 (c : ℚ) := fround64_pos _ ha0
    have hq2pos : 0 < fround64 (t : ℚ) := fround64_pos _ hb0
    set q1 := fround64 (c : ℚ) with hq1def
    set q2 := fround64 (t : ℚ) with hq2def
    have hrpos : 0 < q1 / q2 := div_pos hq1pos hq2pos
    obtain ⟨hC1, hC2⟩ := fround64_bounds _ hrpos
    have hq3pos : 0 < fround64 (q1 / q2) := fround64_pos _ hrpos
    set r := q1 / q2 with hrdef
    set q3 := fround64 r with hq3def
    have hm100 : 0 < q3 * 100 := by positivity
    obtain ⟨hD1, hD2⟩ := fround64_bounds _ hm100
    set P := fround64 (q3 * 100) with hPdef
    have hq1eq : r * q2 = q1 := div_mul_cancel₀ q1 (ne_of_gt hq2pos)
    have hrnn : 0 ≤ r := le_of_lt hrpos
    have hE1 : r * ((t : ℚ) * (1 - ulpFrac)) ≤ (c : ℚ) * (1 + ulpFrac) := by
      have h := mul_le_mul_of_nonneg_left hB1 hrnn
      rw [hq1eq] at h
      linarith [hA2]
    have hE2 : (c : ℚ) * (1 - ulpFrac) ≤ r * ((t : ℚ) * (1 + ulpFrac)) := by
      have h := mul_le_mul_of_nonneg_left hB2 hrnn
      rw [hq1eq] at h
      linarith [hA1]
    have hbu1 : (0 : ℚ) ≤ (t : ℚ) * (1 - ulpFrac) := mul_nonneg (le_of_lt hb0) (le_of_lt h1u)
    have hbu2 : (0 : ℚ) ≤ (t : ℚ) * (1 + ulpFrac) := mul_nonneg (le_of_lt hb0) (le_of_lt h1u2)
    have hM1 := mul_le_mul_of_nonneg_right hD2 hbu1
    have hcoef1 : (0 : ℚ) ≤ 100 * (1 + ulpFrac) * ((t : ℚ) * (1 - ulpFrac)) :=
      mul_nonneg (mul_nonneg (by norm_num) (le_of_lt h1u2)) hbu1
    have hM2 := mul_le_mul_of_nonneg_right hC2 hcoef1
    have hcoef2 : (0 : ℚ) ≤ 100 * (1 + ulpFrac) * (1 + ulpFrac) :=
      mul_nonneg (mul_nonneg (by norm_num) (le_of_lt h1u2)) (le_of_lt h1u2)
    have hM3 := mul_le_mul_of_nonneg_right hE1 hcoef2
    have hF1 : P * ((t : ℚ) * (1 - ulpFrac)) ≤ 100 * (c : ℚ) * (1 + ulpFrac) ^ 3 := by
      calc P * ((t : ℚ) * (1 - ulpFrac))
          ≤ (q3 * 100 * (1 + ulpFrac)) * ((t : ℚ) * (1 - ulpFrac)) := hM1
        _ = q3 * (100 * (1 + ulpFrac) * ((t : ℚ) * (1 - ulpFrac))) := by ring
        _ ≤ (r * (1 + ulpFrac)) * (100 * (1 + ulpFrac) * ((t : ℚ) * (1 - ulpFrac))) := hM2
        _ = (r * ((t : ℚ) * (1 - ulpFrac))) * (100 * (1 + ulpFrac) * (1 + ulpFrac)) := by ring
        _ ≤ ((c : ℚ) * (1 + ulpFrac)) * (100 * (1 + ulpFrac) * (1 + ulpFrac)) := hM3
        _ = 100 * (c : ℚ) * (1 + ulpFrac) ^ 3 := by ring
    have hD1c : 100 * ((1 + ulpFrac) ^ 3 - (1 - ulpFrac)) * (c : ℚ)
        ≤ 100 * ((1 + ulpFrac) ^ 3 - (1 - ulpFrac)) * (t : ℚ) := by
      apply mul_le_mul_of_nonneg_left hab
      norm_num [ulpFrac]
    have hD2c : 100 * ((1 + ulpFrac) ^ 3 - (1 - ulpFrac)) * (t : ℚ)
        ≤ (1 - ulpFrac) / 2 * (t : ℚ) := by
      apply mul_le_mul_of_nonneg_right _ (le_of_lt hb0)
      norm_num [ulpFrac]
    have hG1 : P * (t : ℚ) ≤ 100 * (c : ℚ) + (t : ℚ) / 2 := by
      have hkey : P * (t : ℚ) * (1 - ulpFrac) ≤ (100 * (c : ℚ) + (t : ℚ) / 2) * (1 - ulpFrac) := by
        linarith [hF1, hD1c, hD2c]
      exact le_of_mul_le_mul_right hkey h1u
    have hM1b := mul_le_mul_of_nonneg_right hD1 hbu2
    have hcoef1b : (0 : ℚ) ≤ 100 * (1 - ulpFrac) * ((t : ℚ) * (1 + ulpFrac)) :=
      mul_nonneg (mul_nonneg (by norm_num) (le_of_lt h1u)) hbu2
    have hM2b := mul_le_mul_of_nonneg_right hC1 hcoef1b
    have hcoef2b : (0 : ℚ) ≤ 100 * (1 - ulpFrac) * (1 - ulpFrac) :=
      mul_nonneg (mul_nonneg (by norm_num) (le_of_lt h1u)) (le_of_lt h1u)
    have hM3b := mul_le_mul_of_nonneg_right hE2 hcoef2b
    have hF2 : 100 * (c : ℚ) * (1 - ulpFrac) ^ 3 ≤ P * ((t : ℚ) * (1 + ulpFrac)) := by
      calc 100 * (c : ℚ) * (1 - ulpFrac) ^ 3
          = ((c : ℚ) * (1 - ulpFrac)) * (100 * (1 - ulpFrac) * (1 - ulpFrac)) := by ring
        _ ≤ (r * ((t : ℚ) * (1 + ulpFrac))) * (100 * (1 - ulpFrac) * (1 - ulpFrac)) := hM3b
        _ = (r * (1 - ulpFrac)) * (100 * (1 - ulpFrac) * ((t : ℚ) * (1 + ulpFrac))) := by ring
        _ ≤ q3 * (100 * (1 - ulpFrac) * ((t : ℚ) * (1 + ulpFrac))) := hM2b
        _ = (q3 * 100 * (1 - ulpFrac)) * ((t : ℚ) * (1 + ulpFrac)) := by ring
        _ ≤ P * ((t : ℚ) * (1 + ulpFrac)) := hM1b
    have hD1d : 100 * ((1 + ulpFrac) - (1 - ulpFrac) ^ 3) * (c : ℚ)
        ≤ 100 * ((1 + ulpFrac) - (1 - ulpFrac) ^ 3) * (t : ℚ) := by
      apply mul_le_mul_of_nonneg_left hab
      norm_num [ulpFrac]
    have hD2d : 100 * ((1 + ulpFrac) - (1 - ulpFrac) ^ 3) * (t : ℚ)
        ≤ (1 + ulpFrac) / 2 * (t : ℚ) := by
      apply mul_le_mul_of_nonneg_right _ (le_of_lt hb0)
      norm_num [ulpFrac]
    have hG2 : 100 * (c : ℚ) - (t : ℚ) / 2 ≤ P * (t : ℚ) := by
      have hkey : (100 * (c : ℚ) - (t : ℚ) / 2) * (1 + ulpFrac) ≤ P * (t : ℚ) * (1 + ulpFrac) := by
        linarith [hF2, hD1d, hD2d]
      exact le_of_mul_le_mul_right hkey h1u2
    have htne : ((t : ℚ)) ≠ 0 := ne_of_gt hb0
    have hmulc : 100 * (c : ℚ) / (t : ℚ) * (t : ℚ) = 100 * (c : ℚ) := div_mul_cancel₀ _ htne
    rw [abs_sub_le_iff]
    constructor
    · have hstep : (P - 100 * (c : ℚ) / (t : ℚ)) * (t : ℚ) ≤ 1 / 2 * (t : ℚ) := by
        have hexp : (P - 100 * (c : ℚ) / (t : ℚ)) * (t : ℚ) = P * (t : ℚ) - 100 * (c : ℚ) := by
          rw [sub_mul, hmulc]
        rw [hexp]
        linarith [hG1]
      exact le_of_mul_le_mul_right hstep hb0
    · have hstep : (100 * (c : ℚ) / (t : ℚ) - P) * (t : ℚ) ≤ 1 / 2 * (t : ℚ) := by
        have hexp : (100 * (c : ℚ) / (t : ℚ) - P) * (t : ℚ) = 100 * (c : ℚ) - P * (t : ℚ) := by
          rw [sub_mul, hmulc]
        rw [hexp]
        linarith [hG2]
      exact le_of_mul_le_mul_right hstep hb0

theorem jsPercentage_close (c t : Nat) (ht : 0 < t) (hct : c ≤ t) :
    |jsPercentage c t - mathRound (100 * (c : ℚ) / (t : ℚ))| ≤ 1 := by
  unfold jsPercentage
  exact mathRound_close _ _ (jsQuotient_close c t ht hct)

/-- Claim C5 (amended): for every task forest, completed is at most total;
totalTasks and completedTasks are the two counts; for a positive total the
percentage is Math.round applied to the binary64 evaluation of
(completed / total) * 100, which always lies within one unit of the exact
rational rounding of 100 times completed over total; a zero total gives
percentage zero. -/
theorem calculateProgress_spec (ts : List Task) :
    countCompletedTasks ts ≤ countTasks ts
    ∧ (calculateProgress ts).totalTasks = countTasks ts
    ∧ (calculateProgress ts).completedTasks = countCompletedTasks ts
    ∧ (countTasks ts ≠ 0 →
        (calculateProgress ts).percentage
          = mathRound (fround64 (fround64
              (jsNumber (countCompletedTasks ts) / jsNumber (countTasks ts)) * 100))
        ∧ |(calculateProgress ts).percentage
            - mathRound (100 * (countCompletedTasks ts : ℚ) / (countTasks ts : ℚ))| ≤ 1)
    ∧ (countTasks ts = 0 → (calculateProgress ts).percentage = 0) := by
  refine ⟨countCompletedTasks_le ts, rfl, rfl, ?_, ?_⟩
  · intro ht
    have hpos : 0 < countTasks ts := Nat.pos_of_ne_zero ht
    constructor
    · unfold calculateProgress
      simp only [hpos, if_true]
      rfl
    · have h := jsPercentage_close (countCompletedTasks ts) (countTasks ts) hpos
        (countCompletedTasks_le ts)
      unfold calculateProgress
      simp only [hpos, if_true]
      exact h
  · intro ht
    unfold calculateProgress
    simp [ht]

/-- Forest realizing the worked example of the spec: roots A (with child B)
and C, three tasks, one completed. -/
def c5forest : List Task :=
  [Task.mk 0 (['A']) false 1 [Task.mk 1 (['B']) false 2 []],
   Task.mk 2 (['C']) true 3 []]

/-- Witness for the amended C5 at the three-task example forest. -/
theorem calculateProgress_spec_witness :
    countTasks c5forest ≠ 0
    ∧ ((calculateProgress c5forest).percentage
        = mathRound (fround64 (fround64
            (jsNumber (countCompletedTasks c5forest) / jsNumber (countTasks c5forest)) * 100))
      ∧ |(calculateProgress c5forest).percentage
          - mathRound (100 * (countCompletedTasks c5forest : ℚ) / (countTasks c5forest : ℚ))| ≤ 1) :=
  ⟨by simp [c5forest, countTasks], (calculateProgress_spec c5forest).2.2.2.1
    (by simp [c5forest, countTasks])⟩

/-! Concrete binary64 evaluation at twenty-three fortieths, the reachable
input where double rounding and exact rounding disagree. -/

theorem jsNumber_23 : jsNumber 23 = 23 := by
  unfold jsNumber
  have hc : ((23 : ℕ) : ℚ) = 23 := by norm_num
  rw [hc]
  have h := fround64_eq_near (23 : ℚ) 4 6473924464345088 (by norm_num) (by norm_num)
    (by norm_num) (by rw [abs_sub_lt_iff]; constructor <;> norm_num)
  rw [h]
  norm_num

theorem jsNumber_40 : jsNumber 40 = 40 := by
  unfold jsNumber
  have hc : ((40 : ℕ) : ℚ) = 40 := by norm_num
  rw [hc]
  have h := fround64_eq_near (40 : ℚ) 5 5629499534213120 (by norm_num) (by norm_num)
    (by norm_num) (by rw [abs_sub_lt_iff]; constructor <;> norm_num)
  rw [h]
  norm_num

theorem fround64_div2340 :
    fround64 ((23 : ℚ) / 40) = (5179139571476070 : ℚ) * (2 : ℚ) ^ (-53 : ℤ) := by
  have h := fround64_eq_near ((23 : ℚ) / 40) (-1) 5179139571476070 (by norm_num) (by norm_num)
    (by norm_num) (by rw [abs_sub_lt_iff]; constructor <;> norm_num)
  rw [h]
  norm_num

theorem fround64_mul2340 :
    fround64 ((5179139571476070 : ℚ) * (2 : ℚ) ^ (-53 : ℤ) * 100)
      = (8092405580431359 : ℚ) * (2 : ℚ) ^ (-47 : ℤ) := by
  have h := fround64_eq_near ((5179139571476070 : ℚ) * (2 : ℚ) ^ (-53 : ℤ) * 100) 5
    8092405580431359 (by norm_num) (by norm_num) (by norm_num)
    (by rw [abs_sub_lt_iff]; constructor <;> norm_num)
  rw [h]
  norm_num

theorem jsPercentage_2340 : jsPercentage 23 40 = 57 := by
  unfold jsPercentage
  rw [jsNumber_23, jsNumber_40, fround64_div2340, fround64_mul2340]
  unfold mathRound
  rw [Int.floor_eq_iff]
  constructor <;> norm_num

/-! Counting over appended and replicated leaf forests, to realize the
forty-task counterexample input. -/

theorem countTasks_append (l1 l2 : List Task) :
    countTasks (l1 ++ l2) = countTasks l1 + countTasks l2 := by
  induction l1 with
  | nil => simp [countTasks]
  | cons t rest ih =>
    cases t with
    | mk i ti co ln subs =>
      simp only [List.cons_append, countTasks, ih]
      omega

theorem countCompletedTasks_append (l1 l2 : List Task) :
    countCompletedTasks (l1 ++ l2) = countCompletedTasks l1 + countCompletedTasks l2 := by
  induction l1 with
  | nil => simp [countCompletedTasks]
  | cons t rest ih =>
    cases t with
    | mk i ti co ln subs =>
      simp only [List.cons_append, countCompletedTasks, ih]
      omega

theorem countTasks_replicate (n i : Nat) (ti : List Char) (co : Bool) (ln : Nat) :
    countTasks (List.replicate n (Task.mk i ti co ln [])) = n := by
  induction n with
  | zero => simp [countTasks]
  | succ k ih =>
    simp only [List.replicate_succ, countTasks, ih]
    omega

theorem countCompletedTasks_replicate (n i : Nat) (ti : List Char) (co : Bool) (ln : Nat) :
    countCompletedTasks (List.replicate n (Task.mk i ti co ln [])) = if co then n else 0 := by
  induction n with
  | zero => simp [countCompletedTasks]
  | succ k ih =>
    simp only [List.replicate_succ, countCompletedTasks, ih]
    cases co <;> simp <;> omega

/-- A forty-line tasks forest with twenty-three completed root tasks and
seventeen open ones. -/
def c5badForest : List Task :=
  List.replicate 23 (Task.mk 0 [] true 1 [])
    ++ List.replicate 17 (Task.mk 0 [] false 1 [])

/-- Counterexample for the original C5: on a forest of forty tasks with
twenty-three completed, the binary64 value of (23 / 40) * 100 is
8092405580431359 over 2 to the 47, just below 57.5, so the program
reports 57 while exact rational rounding gives 58. -/
theorem calculateProgress_exact_counterexample :
    countTasks c5badForest = 40
    ∧ countCompletedTasks c5badForest = 23
    ∧ (calculateProgress c5badForest).percentage = 57
    ∧ mathRound (100 * (countCompletedTasks c5badForest : ℚ) / (countTasks c5badForest : ℚ)) = 58
    ∧ (calculateProgress c5badForest).percentage
        ≠ mathRound (100 * (countCompletedTasks c5badForest : ℚ) / (countTasks c5badForest : ℚ)) := by
  have h40 : countTasks c5badForest = 40 := by
    simp only [c5badForest, countTasks_append, countTasks_replicate]
  have h23 : countCompletedTasks c5badForest = 23 := by
    simp only [c5badForest, countCompletedTasks_append, countCompletedTasks_replicate]
    norm_num
  have hprog : (calculateProgress c5badForest).percentage = jsPercentage 23 40 := by
    unfold calculateProgress
    simp only [h40, h23]
    norm_num
  have h58 : mathRound (100 * ((23 : ℕ) : ℚ) / ((40 : ℕ) : ℚ)) = 58 := by
    unfold mathRound
    rw [Int.floor_eq_iff]
    constructor <;> push_cast <;> norm_num
  refine ⟨h40, h23, ?_, ?_, ?_⟩
  · rw [hprog]
    exact jsPercentage_2340
  · rw [h40, h23]
    exact h58
  · rw [hprog, jsPercentage_2340, h40, h23, h58]
    decide

/-! Claim C10: next-task selection order. -/

/-- Claim C10: findFirstIncomplete returns the first task with a false
completed flag in the pre-order traversal given by flattenTasks (parents
before subtasks, siblings in order), and returns none exactly when every
task and subtask is completed. -/
theorem findFirstIncomplete_spec (ts : List Task) :
    findFirstIncomplete ts = (flattenTasks ts).find? (fun t => !t.completed)
    ∧ (findFirstIncomplete ts = none ↔ ∀ t ∈ flattenTasks ts, t.completed = true) := by
  have key : ∀ us, findFirstIncomplete us = (flattenTasks us).find? (fun t => !t.completed) := by
    intro us
    induction us using taskList_ind with
    | h0 => simp [findFirstIncomplete, flattenTasks]
    | h1 i ti c ln subs rest ihs ihr =>
      simp only [findFirstIncomplete, flattenTasks]
      by_cases hc : c = true
      · subst hc
        simp only [Bool.not_true, Bool.false_eq_true, if_false]
        rw [List.find?_cons_of_neg _ (by simp [Task.completed])]
        rw [List.find?_append, ihs, ihr]
        cases hfs : (flattenTasks subs).find? (fun t => !t.completed) <;> simp
      · have hc2 : c = false := by
          cases c
          · rfl
          · exact absurd rfl hc
        subst hc2
        simp only [Bool.not_false, if_true]
        rw [List.find?_cons_of_pos _ (by simp [Task.completed])]
  refine ⟨key ts, ?_⟩
  rw [key ts, List.find?_eq_none]
  constructor
  · intro hall t ht
    have := hall t ht
    simpa using this
  · intro hall t ht
    have := hall t ht
    simpa using this

/-- Witness for C10: on a fully completed forest the selector, applied
through the theorem, returns none. -/
theorem findFirstIncomplete_spec_witness :
    findFirstIncomplete [Task.mk 0 (['A']) true 1 [Task.mk 1 (['B']) true 2 []]] = none :=
  (findFirstIncomplete_spec _).2.mpr (by simp [flattenTasks, Task.completed])

/-! Claim C9: toggle is a no-op on unknown ids. -/

theorem findTask_some_mem : ∀ (ts : List Task) (tid : Nat) (t : Task),
    findTask ts tid = some t → t ∈ flattenTasks ts ∧ t.id = tid := by
  have key : ∀ ts, ∀ (tid : Nat) (t : Task),
      findTask ts tid = some t → t ∈ flattenTasks ts ∧ t.id = tid := by
    intro ts
    induction ts using taskList_ind with
    | h0 => intro tid t h; simp [findTask] at h
    | h1 i ti c ln subs rest ihs ihr =>
      intro tid t h
      simp only [findTask] at h
      by_cases hi : i = tid
      · rw [if_pos hi] at h
        simp at h
        subst h
        exact ⟨by simp [flattenTasks], by simpa [Task.id] using hi⟩
      · rw [if_neg hi] at h
        cases hs : findTask subs tid with
        | some f =>
          rw [hs] at h
          simp at h
          subst h
          have hf := ihs tid f hs
          refine ⟨?_, hf.2⟩
          simp only [flattenTasks, List.mem_cons, List.mem_append]
          exact Or.inr (Or.inl hf.1)
        | none =>
          rw [hs] at h
          have hr := ihr tid t h
          refine ⟨?_, hr.2⟩
          simp only [flattenTasks, List.mem_cons, List.mem_append]
          exact Or.inr (Or.inr hr.1)
  exact key

/-- Claim C9: when the tasks artifact cannot be read, or the id matches no
task in the parse of its content, toggleTask performs no write at all. -/
theorem toggleTask_unknown_noop (art : Option (List Char)) (tid : Nat)
    (h : art = none
       ∨ ∀ t ∈ flattenTasks (parseTasksFromContent (art.getD [])), t.id ≠ tid) :
    toggleTask art tid = none := by
  cases art with
  | none => rfl
  | some content =>
    unfold toggleTask
    by_cases he : content.isEmpty = true
    · simp [he]
    · simp only [he, Bool.false_eq_true, if_false]
      unfold toggleTaskContent
      cases hf : findTask (parseTasksFromContent content) tid with
      | none => rfl
      | some t =>
        exfalso
        obtain ⟨hmem, hid⟩ := findTask_some_mem _ _ _ hf
        rcases h with h | h
        · simp at h
        · exact h t (by simpa using hmem) hid

/-- Witness for C9: toggling the unknown id 5 on a one-task text performs
no write. -/
theorem toggleTask_unknown_noop_witness :
    toggleTask (some ("- [ ] A".toList)) 5 = none := by
  apply toggleTask_unknown_noop
  right
  intro t ht
  have hp : parseTasksFromContent (((some ("- [ ] A".toList)).getD []))
      = [Task.mk 0 (['A']) false 1 []] := rfl
  rw [hp] at ht
  simp [flattenTasks] at ht
  subst ht
  simp [Task.id]

/-! Claim C4: string-level lemmas for the toggle rewrite. -/

theorem getD_set_ne {α : Type} (l : List α) (i j : Nat) (x d : α) (h : i ≠ j) :
    (l.set i x).getD j d = l.getD j d := by
  unfold List.getD
  rw [List.get?_eq_getElem?, List.get?_eq_getElem?, List.getElem?_set_ne h]

theorem getD_set_self {α : Type} (l : List α) (i : Nat) (x d : α) (h : i < l.length) :
    (l.set i x).getD i d = x := by
  unfold List.getD
  rw [List.get?_eq_getElem?, List.getElem?_set_self]
  · rfl
  · exact h

theorem splitOnChar_ne_nil (sep : Char) : ∀ (s : List Char), splitOnChar sep s ≠ [] := by
  intro s
  cases s with
  | nil => simp [splitOnChar]
  | cons c rest =>
    unfold splitOnChar
    by_cases hc : (c == sep) = true
    · simp [hc]
    · simp only [hc, Bool.false_eq_true, if_false]
      cases splitOnChar sep rest <;> simp

theorem mem_splitOnChar_not_sep (sep : Char) : ∀ (s l : List Char),
    l ∈ splitOnChar sep s → sep ∉ l := by
  intro s
  induction s with
  | nil =>
    intro l hl
    simp [splitOnChar] at hl
    simp [hl]
  | cons c rest ih =>
    intro l hl
    unfold splitOnChar at hl
    by_cases hc : (c == sep) = true
    · rw [if_pos hc] at hl
      rcases List.mem_cons.mp hl with h | h
      · simp [h]
      · exact ih l h
    · rw [if_neg hc] at hl
      cases hs : splitOnChar sep rest with
      | nil => exact absurd hs (splitOnChar_ne_nil sep rest)
      | cons l0 ls =>
        rw [hs] at hl
        rcases List.mem_cons.mp hl with h | h
        · subst h
          intro hmem
          rcases List.mem_cons.mp hmem with h2 | h2
          · rw [h2] at hc
            simp at hc
          · exact ih l0 (by rw [hs]; exact List.mem_cons_self l0 ls) h2
        · exact ih l (by rw [hs]; exact List.mem_cons_of_mem l0 h)

theorem splitOnChar_no_sep (sep : Char) : ∀ (l : List Char),
    sep ∉ l → splitOnChar sep l = [l] := by
  intro l
  induction l with
  | nil => intro _; rfl
  | cons c rest ih =>
    intro h
    have hc : (c == sep) = false := by
      simp only [List.mem_cons, not_or] at h
      simp [beq_eq_false_iff_ne]
      intro hcc
      exact h.1 hcc.symm
    unfold splitOnChar
    rw [hc]
    simp only [Bool.false_eq_true, if_false]
    rw [ih (by simp only [List.mem_cons, not_or] at h; exact h.2)]

theorem splitOnChar_cons_sep (sep : Char) (rest : List Char) :
    splitOnChar sep (sep :: rest) = [] :: splitOnChar sep rest := by
  conv_lhs => rw [splitOnChar]
  simp

theorem splitOnChar_cons_ne (sep c : Char) (rest : List Char) (hc : (c == sep) = false) :
    splitOnChar sep (c :: rest) =
      (match splitOnChar sep rest with
       | [] => [[c]]
       | l :: ls => (c :: l) :: ls) := by
  conv_lhs => rw [splitOnChar]
  simp [hc]

theorem splitOnChar_append_sep (sep : Char) : ∀ (l r : List Char),
    sep ∉ l → splitOnChar sep (l ++ sep :: r) = l :: splitOnChar sep r := by
  intro l
  induction l with
  | nil =>
    intro r _
    simp only [List.nil_append]
    exact splitOnChar_cons_sep sep r
  | cons c rest ih =>
    intro r h
    have hc : (c == sep) = false := by
      simp only [List.mem_cons, not_or] at h
      simp [beq_eq_false_iff_ne]
      intro hcc
      exact h.1 hcc.symm
    rw [List.cons_append, splitOnChar_cons_ne sep c _ hc]
    rw [ih r (by simp only [List.mem_cons, not_or] at h; exact h.2)]

theorem splitOnChar_joinChar (sep : Char) : ∀ (ls : List (List Char)),
    ls ≠ [] → (∀ l ∈ ls, sep ∉ l) → splitOnChar sep (joinChar sep ls) = ls := by
  intro ls
  induction ls with
  | nil => intro h _; exact absurd rfl h
  | cons l ls2 ih =>
    intro _ hall
    cases ls2 with
    | nil =>
      simp only [joinChar]
      exact splitOnChar_no_sep sep l (hall l (by simp))
    | cons l2 ls3 =>
      have hjoin : joinChar sep (l :: l2 :: ls3) = l ++ sep :: joinChar sep (l2 :: ls3) := rfl
      rw [hjoin]
      rw [splitOnChar_append_sep sep l _ (hall l (by simp))]
      rw [ih (by simp) (fun x hx => hall x (List.mem_cons_of_mem l hx))]

theorem matchCheckbox_nil : matchCheckbox [] = none := rfl

theorem matchCheckbox_shape (line : List Char) (w : Nat) (m : Char) (ti : List Char)
    (h : matchCheckbox line = some (w, m, ti)) :
    ∃ ws, line = ws ++ '-' :: ' ' :: '[' :: m :: ']' :: ' ' :: ti
      ∧ (∀ c ∈ ws, isJsWs c = true) ∧ ws.length = w
      ∧ (m = ' ' ∨ m = 'x' ∨ m = 'X') ∧ ti ≠ [] := by
  unfold matchCheckbox at h
  split at h
  · next m0 title heq =>
    split at h
    · next hcond =>
      simp only [Option.some.injEq, Prod.mk.injEq] at h
      obtain ⟨hw, hm, hti⟩ := h
      subst hw; subst hm; subst hti
      refine ⟨line.takeWhile isJsWs, ?_, ?_, rfl, ?_, ?_⟩
      · conv_lhs => rw [← @List.takeWhile_append_dropWhile _ isJsWs line]
        rw [heq]
      · intro c hc
        exact List.mem_takeWhile_imp hc
      · simp only [Bool.and_eq_true] at hcond
        have hmark := hcond.1
        simp only [Bool.or_eq_true, beq_iff_eq] at hmark
        rcases hmark with (h | h) | h
        · exact Or.inl h
        · exact Or.inr (Or.inl h)
        · exact Or.inr (Or.inr h)
      · simp only [Bool.and_eq_true] at hcond
        have htitle := hcond.2
        intro hnil
        subst hnil
        simp at htitle
    · simp at h
  · simp at h

theorem getD_mem {α : Type} (l : List α) (i : Nat) (d : α) (h : i < l.length) :
    l.getD i d ∈ l := by
  unfold List.getD
  rw [List.get?_eq_getElem?, List.getElem?_eq_getElem h]
  exact List.getElem_mem h

theorem isJsWs_ne_lbracket {c : Char} (h : isJsWs c = true) : (c == '[') = false := by
  unfold isJsWs at h
  simp only [Bool.or_eq_true, beq_iff_eq] at h
  rcases h with ((((h | h) | h) | h) | h) | h <;> (subst h; decide)

theorem replaceMarkX_cons_ne (a : Char) (ha : (a == '[') = false) (rest : List Char) :
    replaceMarkX (a :: rest) = a :: replaceMarkX rest := by
  cases rest with
  | nil => rfl
  | cons b rest1 =>
    cases rest1 with
    | nil => rfl
    | cons c rest2 =>
      conv_lhs => rw [replaceMarkX]
      simp [ha]

theorem replaceMarkSpace_cons_ne (a : Char) (ha : (a == '[') = false) (rest : List Char) :
    replaceMarkSpace (a :: rest) = a :: replaceMarkSpace rest := by
  cases rest with
  | nil => rfl
  | cons b rest1 =>
    cases rest1 with
    | nil => rfl
    | cons c rest2 =>
      conv_lhs => rw [replaceMarkSpace]
      simp [ha]

theorem replaceMarkX_shape : ∀ (ws : List Char), (∀ c ∈ ws, isJsWs c = true) →
    ∀ (m : Char), (m = 'x' ∨ m = 'X') → ∀ (ti : List Char),
    replaceMarkX (ws ++ '-' :: ' ' :: '[' :: m :: ']' :: ' ' :: ti)
      = ws ++ '-' :: ' ' :: '[' :: ' ' :: ']' :: ' ' :: ti := by
  intro ws
  induction ws with
  | nil =>
    intro _ m hm ti
    rcases hm with h | h <;> (subst h; rfl)
  | cons a ws2 ih =>
    intro hall m hm ti
    have hane : (a == '[') = false := isJsWs_ne_lbracket (hall a (by simp))
    rw [List.cons_append, replaceMarkX_cons_ne a hane]
    rw [ih (fun c hc => hall c (List.mem_cons_of_mem a hc)) m hm ti]
    rfl

theorem replaceMarkSpace_shape : ∀ (ws : List Char), (∀ c ∈ ws, isJsWs c = true) →
    ∀ (ti : List Char),
    replaceMarkSpace (ws ++ '-' :: ' ' :: '[' :: ' ' :: ']' :: ' ' :: ti)
      = ws ++ '-' :: ' ' :: '[' :: 'x' :: ']' :: ' ' :: ti := by
  intro ws
  induction ws with
  | nil => intro _ ti; rfl
  | cons a ws2 ih =>
    intro hall ti
    have hane : (a == '[') = false := isJsWs_ne_lbracket (hall a (by simp))
    rw [List.cons_append, replaceMarkSpace_cons_ne a hane]
    rw [ih (fun c hc => hall c (List.mem_cons_of_mem a hc)) ti]
    rfl

/-- Consistency of a parsed entry with its source line: the line of the
content that the entry names matches the checkbox pattern, and the
completed flag agrees with the marker. -/
def LineOk (L : List (List Char)) (e : TaskEntry) : Prop :=
  1 ≤ e.lineNumber ∧ ∃ w m ti,
    matchCheckbox (L.getD (e.lineNumber - 1) []) = some (w, m, ti)
    ∧ e.completed = (m == 'x' || m == 'X')

theorem parseLine_es (st : ParseState) (i : Nat) (line : List Char) :
    (parseLine st i line).es = st.es
    ∨ ∃ w m ti, matchCheckbox line = some (w, m, ti) ∧
      (parseLine st i line).es = st.es ++
        [{ idx := st.es.length, title := jsTrim ti, completed := (m == 'x' || m == 'X'),
           lineNumber := i + 1, level := w / 2,
           parent := if w / 2 == 0 then none else parentFor st.stack (w / 2) }] := by
  unfold parseLine
  cases h : matchCheckbox line with
  | none => left; rfl
  | some t =>
    right
    obtain ⟨w, m, ti⟩ := t
    exact ⟨w, m, ti, rfl, rfl⟩

theorem parseLines_lineOk (L : List (List Char)) :
    ∀ (ls : List (List Char)) (i : Nat) (st : ParseState),
      ls = L.drop i → (∀ e ∈ st.es, LineOk L e) →
      ∀ e ∈ (parseLines ls i st).es, LineOk L e := by
  intro ls
  induction ls with
  | nil =>
    intro i st _ hinv e he
    exact hinv e he
  | cons l ls2 ih =>
    intro i st hdrop hinv e he
    have hl : L.getD i [] = l := by
      have h2 : (L.drop i).head? = some l := by rw [← hdrop]; rfl
      rw [List.head?_drop] at h2
      unfold List.getD
      rw [List.get?_eq_getElem?, h2]
      rfl
    have hdrop2 : ls2 = L.drop (i + 1) := by
      have htl : (L.drop i).tail = ls2 := by rw [← hdrop]; rfl
      rw [← htl, List.tail_drop]
    refine ih (i + 1) (parseLine st i l) hdrop2 ?_ e he
    intro e2 he2
    rcases parseLine_es st i l with hsame | ⟨w, m, ti, hmatch, hes⟩
    · rw [hsame] at he2
      exact hinv e2 he2
    · rw [hes] at he2
      rcases List.mem_append.mp he2 with h2 | h2
      · exact hinv e2 h2
      · simp only [List.mem_singleton] at h2
        subst h2
        refine ⟨by simp, w, m, ti, ?_, rfl⟩
        show matchCheckbox (L.getD i []) = some (w, m, ti)
        rw [hl]
        exact hmatch

theorem parseEntries_lineOk (content : List Char) :
    ∀ e ∈ parseEntries content, LineOk (splitOnChar '\n' content) e := by
  intro e he
  exact parseLines_lineOk (splitOnChar '\n' content) (splitOnChar '\n' content) 0 initState
    rfl (by intro e2 he2; simp [initState] at he2) e he

theorem flattenTasks_cons_decomp (x : Task) (l : List Task) :
    flattenTasks (x :: l) = flattenTasks [x] ++ flattenTasks l := by
  cases x with
  | mk i ti c ln subs => simp [flattenTasks]

theorem mem_flattenTasks_list : ∀ (l : List Task) (t : Task),
    t ∈ flattenTasks l ↔ ∃ x ∈ l, t ∈ flattenTasks [x] := by
  intro l
  induction l with
  | nil => intro t; simp [flattenTasks]
  | cons x l2 ih =>
    intro t
    rw [flattenTasks_cons_decomp, List.mem_append]
    constructor
    · rintro (h | h)
      · exact ⟨x, by simp, h⟩
      · obtain ⟨y, hy, ht⟩ := (ih t).mp h
        exact ⟨y, by simp [hy], ht⟩
    · rintro ⟨y, hy, ht⟩
      rcases List.mem_cons.mp hy with rfl | hy2
      · exact Or.inl ht
      · exact Or.inr ((ih t).mpr ⟨y, hy2, ht⟩)

/-- Correspondence of a reconstructed task with some parsed entry, in the
fields the toggle rewrite uses. -/
def FieldsOf (es : List TaskEntry) (t : Task) : Prop :=
  ∃ e ∈ es, t.completed = e.completed ∧ t.lineNumber = e.lineNumber

theorem buildPending_fields : ∀ (es : List TaskEntry) (pr : Option Nat × Task),
    pr ∈ buildPending es → ∀ t ∈ flattenTasks [pr.2], FieldsOf es t := by
  intro es
  induction es with
  | nil =>
    intro pr hpr
    simp [buildPending] at hpr
  | cons e0 rest ih =>
    intro pr hpr t ht
    have hstep : buildPending (e0 :: rest) = buildStep e0 (buildPending rest) := rfl
    rw [hstep] at hpr
    unfold buildStep at hpr
    rcases List.mem_cons.mp hpr with rfl | htail
    · simp only [flattenTasks, List.append_nil] at ht
      rcases List.mem_cons.mp ht with rfl | hsub
      · exact ⟨e0, by simp, rfl, rfl⟩
      · rw [mem_flattenTasks_list] at hsub
        obtain ⟨c, hc, htc⟩ := hsub
        rw [List.mem_map] at hc
        obtain ⟨pr2, hpr2, hsnd⟩ := hc
        have hpr2m : pr2 ∈ buildPending rest := List.mem_of_mem_filter hpr2
        have := ih pr2 hpr2m t (by rw [hsnd]; exact htc)
        obtain ⟨e, he, hf⟩ := this
        exact ⟨e, List.mem_cons_of_mem e0 he, hf⟩
    · have hmem : pr ∈ buildPending rest := List.mem_of_mem_filter htail
      obtain ⟨e, he, hf⟩ := ih pr hmem t ht
      exact ⟨e, List.mem_cons_of_mem e0 he, hf⟩

theorem parseTasks_fields (content : List Char) :
    ∀ t ∈ flattenTasks (parseTasksFromContent content), FieldsOf (parseEntries content) t := by
  intro t ht
  unfold parseTasksFromContent buildForest at ht
  rw [mem_flattenTasks_list] at ht
  obtain ⟨x, hx, htx⟩ := ht
  rw [List.mem_map] at hx
  obtain ⟨pr, hpr, hsnd⟩ := hx
  have hpr2 : pr ∈ buildPending (parseEntries content) := List.mem_of_mem_filter hpr
  exact buildPending_fields _ pr hpr2 t (by rw [hsnd]; exact htx)

/-- Claim C4: toggling a task found in the parse of the tasks text rewrites
only the source line of that task, flipping its checkbox marker (space to
x, or x and X to space) while keeping the indent, the frame and the title
of the line; every other line of the text is identical before and after. -/
theorem toggleTask_frame (content : List Char) (tid : Nat) (t : Task)
    (h : findTask (parseTasksFromContent content) tid = some t) :
    ∃ (content2 ws ti : List Char) (m m2 : Char),
      toggleTask (some content) tid = some content2
      ∧ (∀ c ∈ ws, isJsWs c = true)
      ∧ ((m = ' ' ∧ t.completed = false ∧ m2 = 'x')
         ∨ ((m = 'x' ∨ m = 'X') ∧ t.completed = true ∧ m2 = ' '))
      ∧ (splitOnChar '\n' content).getD (t.lineNumber - 1) []
          = ws ++ '-' :: ' ' :: '[' :: m :: ']' :: ' ' :: ti
      ∧ splitOnChar '\n' content2
          = (splitOnChar '\n' content).set (t.lineNumber - 1)
              (ws ++ '-' :: ' ' :: '[' :: m2 :: ']' :: ' ' :: ti)
      ∧ (splitOnChar '\n' content2).length = (splitOnChar '\n' content).length
      ∧ (splitOnChar '\n' content2).getD (t.lineNumber - 1) []
          = ws ++ '-' :: ' ' :: '[' :: m2 :: ']' :: ' ' :: ti
      ∧ ∀ j, j ≠ t.lineNumber - 1 →
          (splitOnChar '\n' content2).getD j [] = (splitOnChar '\n' content).getD j [] := by
  obtain ⟨hmem, hid⟩ := findTask_some_mem _ _ _ h
  obtain ⟨e, he, hcomp, hline⟩ := parseTasks_fields content t hmem
  obtain ⟨hln1, w, m, ti0, hmc, hcm⟩ := parseEntries_lineOk content e he
  obtain ⟨ws, hshape, hws, hwlen, hmdisj, hti⟩ := matchCheckbox_shape _ _ _ _ hmc
  have hrange : e.lineNumber - 1 < (splitOnChar '\n' content).length := by
    by_contra hge
    push_neg at hge
    rw [List.getD_eq_default _ _ hge] at hmc
    rw [matchCheckbox_nil] at hmc
    exact Option.noConfusion hmc
  have hcne : content.isEmpty = false := by
    cases content with
    | nil =>
      exfalso
      have hp : parseTasksFromContent [] = [] := rfl
      rw [hp] at h
      simp [findTask] at h
    | cons a b => rfl
  have htog : toggleTask (some content) tid
      = some (joinChar '\n' ((splitOnChar '\n' content).set (t.lineNumber - 1)
          (if t.completed then
            replaceMarkX ((splitOnChar '\n' content).getD (t.lineNumber - 1) [])
          else
            replaceMarkSpace ((splitOnChar '\n' content).getD (t.lineNumber - 1) [])))) := by
    show (if content.isEmpty then none else toggleTaskContent content tid) = _
    rw [hcne]
    simp only [Bool.false_eq_true, if_false]
    unfold toggleTaskContent
    rw [h]
  have hnoNlLine : ('\n') ∉ (splitOnChar '\n' content).getD (e.lineNumber - 1) [] :=
    mem_splitOnChar_not_sep '\n' content _ (getD_mem _ _ _ hrange)
  have hwsNl : ('\n') ∉ ws := by
    intro hc
    exact hnoNlLine (by rw [hshape]; exact List.mem_append.mpr (Or.inl hc))
  have htiNl : ('\n') ∉ ti0 := by
    intro hc
    exact hnoNlLine (by rw [hshape]; exact List.mem_append.mpr (Or.inr (by simp [hc])))
  have hsetSplit : ∀ (m2 : Char), m2 = 'x' ∨ m2 = ' ' →
      splitOnChar '\n' (joinChar '\n' ((splitOnChar '\n' content).set (e.lineNumber - 1)
        (ws ++ '-' :: ' ' :: '[' :: m2 :: ']' :: ' ' :: ti0)))
      = (splitOnChar '\n' content).set (e.lineNumber - 1)
        (ws ++ '-' :: ' ' :: '[' :: m2 :: ']' :: ' ' :: ti0) := by
    intro m2 hm2
    apply splitOnChar_joinChar
    · intro heq
      have hlen := List.length_set (splitOnChar '\n' content) (e.lineNumber - 1)
        (ws ++ '-' :: ' ' :: '[' :: m2 :: ']' :: ' ' :: ti0)
      rw [heq] at hlen
      simp at hlen
      omega
    · intro p hp
      rcases List.mem_or_eq_of_mem_set hp with hpL | hpnew
      · exact mem_splitOnChar_not_sep '\n' content p hpL
      · subst hpnew
        intro hmemNl
        simp only [List.mem_append, List.mem_cons] at hmemNl
        rcases hmemNl with hcws | hrest
        · exact hwsNl hcws
        · rcases hrest with hq | hq | hq | hq | hq | hq | hq
          · exact absurd hq (by decide)
          · exact absurd hq (by decide)
          · exact absurd hq (by decide)
          · rcases hm2 with rfl | rfl <;> exact absurd hq (by decide)
          · exact absurd hq (by decide)
          · exact absurd hq (by decide)
          · exact htiNl hq
  rw [hline] at htog ⊢
  by_cases hcompl : t.completed = true
  · have hmark : m = 'x' ∨ m = 'X' := by
      rcases hmdisj with rfl | hm
      · exfalso
        rw [hcompl] at hcomp
        rw [hcm] at hcomp
        simp at hcomp
      · exact hm
    have hflip : replaceMarkX ((splitOnChar '\n' content).getD (e.lineNumber - 1) [])
        = ws ++ '-' :: ' ' :: '[' :: ' ' :: ']' :: ' ' :: ti0 := by
      rw [hshape]
      exact replaceMarkX_shape ws hws m hmark ti0
    rw [hcompl] at htog
    simp only [if_true] at htog
    rw [hflip] at htog
    refine ⟨joinChar '\n' ((splitOnChar '\n' content).set (e.lineNumber - 1)
        (ws ++ '-' :: ' ' :: '[' :: ' ' :: ']' :: ' ' :: ti0)),
      ws, ti0, m, ' ', htog, hws, Or.inr ⟨hmark, hcompl, rfl⟩, hshape, ?_, ?_, ?_, ?_⟩
    · exact hsetSplit ' ' (Or.inr rfl)
    · rw [hsetSplit ' ' (Or.inr rfl), List.length_set]
    · rw [hsetSplit ' ' (Or.inr rfl)]
      exact getD_set_self _ _ _ _ hrange
    · intro j hj
      rw [hsetSplit ' ' (Or.inr rfl)]
      exact getD_set_ne _ _ _ _ _ (fun hij => hj hij.symm)
  · have hcompl2 : t.completed = false := by
      cases hcv : t.completed
      · rfl
      · exact absurd hcv hcompl
    have hmark : m = ' ' := by
      rcases hmdisj with rfl | hm
      · rfl
      · exfalso
        rw [hcompl2] at hcomp
        rw [hcm] at hcomp
        rcases hm with rfl | rfl <;> simp at hcomp
    subst hmark
    have hflip : replaceMarkSpace ((splitOnChar '\n' content).getD (e.lineNumber - 1) [])
        = ws ++ '-' :: ' ' :: '[' :: 'x' :: ']' :: ' ' :: ti0 := by
      rw [hshape]
      exact replaceMarkSpace_shape ws hws ti0
    rw [hcompl2] at htog
    simp only [Bool.false_eq_true, if_false] at htog
    rw [hflip] at htog
    refine ⟨joinChar '\n' ((splitOnChar '\n' content).set (e.lineNumber - 1)
        (ws ++ '-' :: ' ' :: '[' :: 'x' :: ']' :: ' ' :: ti0)),
      ws, ti0, ' ', 'x', htog, hws, Or.inl ⟨rfl, hcompl2, rfl⟩, hshape, ?_, ?_, ?_, ?_⟩
    · exact hsetSplit 'x' (Or.inl rfl)
    · rw [hsetSplit 'x' (Or.inl rfl), List.length_set]
    · rw [hsetSplit 'x' (Or.inl rfl)]
      exact getD_set_self _ _ _ _ hrange
    · intro j hj
      rw [hsetSplit 'x' (Or.inl rfl)]
      exact getD_set_ne _ _ _ _ _ (fun hij => hj hij.symm)

/-- Witness for C4 at a concrete two-line text, toggling the completed
first task. -/
theorem toggleTask_frame_witness :
    ∃ (content2 ws ti : List Char) (m m2 : Char),
      toggleTask (some ("- [x] A\n- [ ] B".toList)) 0 = some content2
      ∧ (∀ c ∈ ws, isJsWs c = true)
      ∧ ((m = ' ' ∧ (Task.mk 0 (['A']) true 1 []).completed = false ∧ m2 = 'x')
         ∨ ((m = 'x' ∨ m = 'X') ∧ (Task.mk 0 (['A']) true 1 []).completed = true ∧ m2 = ' '))
      ∧ (splitOnChar '\n' ("- [x] A\n- [ ] B".toList)).getD
            ((Task.mk 0 (['A']) true 1 []).lineNumber - 1) []
          = ws ++ '-' :: ' ' :: '[' :: m :: ']' :: ' ' :: ti
      ∧ splitOnChar '\n' content2
          = (splitOnChar '\n' ("- [x] A\n- [ ] B".toList)).set
              ((Task.mk 0 (['A']) true 1 []).lineNumber - 1)
              (ws ++ '-' :: ' ' :: '[' :: m2 :: ']' :: ' ' :: ti)
      ∧ (splitOnChar '\n' content2).length
          = (splitOnChar '\n' ("- [x] A\n- [ ] B".toList)).length
      ∧ (splitOnChar '\n' content2).getD ((Task.mk 0 (['A']) true 1 []).lineNumber - 1) []
          = ws ++ '-' :: ' ' :: '[' :: m2 :: ']' :: ' ' :: ti
      ∧ ∀ j, j ≠ (Task.mk 0 (['A']) true 1 []).lineNumber - 1 →
          (splitOnChar '\n' content2).getD j []
            = (splitOnChar '\n' ("- [x] A\n- [ ] B".toList)).getD j [] :=
  toggleTask_frame ("- [x] A\n- [ ] B".toList) 0 (Task.mk 0 (['A']) true 1 [])
    (by
      have hp : parseTasksFromContent ("- [x] A\n- [ ] B".toList)
          = [Task.mk 0 (['A']) true 1 [], Task.mk 1 (['B']) false 2 []] := rfl
      rw [hp]
      simp [findTask])

/-! Claim C1: parser nesting discipline.  The invariants below track that
entry indices are positions, that parent references point backwards, and
that every live stack slot holds the most recently parsed task of its
indent level. -/

theorem walkDown_none_iff (stack : List (Option Nat)) : ∀ (pl : Nat),
    walkDown stack pl = none ↔ ∀ j, j < pl → stack.getD j none = none := by
  intro pl
  induction pl with
  | zero => simp [walkDown]
  | succ pl2 ih =>
    unfold walkDown
    cases hs : stack.getD pl2 none with
    | some p =>
      constructor
      · intro hcontra
        exact Option.noConfusion hcontra
      · intro hall
        have h2 := hall pl2 (by omega)
        rw [hs] at h2
        exact h2
    | none =>
      rw [ih]
      constructor
      · intro hall j hj
        by_cases hje : j = pl2
        · subst hje; exact hs
        · exact hall j (by omega)
      · intro hall j hj
        exact hall j (by omega)

theorem walkDown_some (stack : List (Option Nat)) : ∀ (pl q : Nat),
    walkDown stack pl = some q → ∃ j, j < pl ∧ stack.getD j none = some q := by
  intro pl
  induction pl with
  | zero => intro q h; simp [walkDown] at h
  | succ pl2 ih =>
    intro q h
    unfold walkDown at h
    cases hs : stack.getD pl2 none with
    | some p =>
      rw [hs] at h
      simp at h
      subst h
      exact ⟨pl2, by omega, hs⟩
    | none =>
      rw [hs] at h
      obtain ⟨j, hj, hjs⟩ := ih q h
      exact ⟨j, by omega, hjs⟩

theorem walkDown_eq_some_of (stack : List (Option Nat)) : ∀ (pl j q : Nat),
    j < pl → stack.getD j none = some q →
    (∀ j2, j < j2 → j2 < pl → stack.getD j2 none = none) →
    walkDown stack pl = some q := by
  intro pl
  induction pl with
  | zero => intro j q hj; omega
  | succ pl2 ih =>
    intro j q hj hslot hall
    unfold walkDown
    by_cases hje : j = pl2
    · subst hje
      rw [hslot]
    · have hpl : stack.getD pl2 none = none := hall pl2 (by omega) (by omega)
      rw [hpl]
      exact ih j q (by omega) hslot (fun j2 h1 h2 => hall j2 h1 (by omega))

theorem newStackAfter_getD (stack : List (Option Nat)) (k n j : Nat) :
    (newStackAfter stack k n).getD j none
      = if j = k then some n else if j < k then stack.getD j none else none := by
  unfold newStackAfter List.getD
  rw [List.get?_eq_getElem?, List.getElem?_map]
  by_cases hj : j < k + 1
  · rw [List.getElem?_range hj]
    by_cases hjk : j = k
    · simp [hjk]
    · have hjlt : j < k := by omega
      simp [hjk, hjlt]
  · rw [List.getElem?_eq_none (by simpa using by omega)]
    have h1 : ¬(j = k) := by omega
    have h2 : ¬(j < k) := by omega
    simp [h1, h2]

/-- The entry at index p is the most recently parsed task whose indent
level is lvl. -/
def MostRecentAtLevel (es : List TaskEntry) (lvl p : Nat) : Prop :=
  ∃ e, es[p]? = some e ∧ e.level = lvl ∧ ∀ e2 ∈ es, e2.level = lvl → e2.idx ≤ p

/-- Entry indices are list positions. -/
def IdxOk (es : List TaskEntry) : Prop :=
  ∀ (j : Nat) (e : TaskEntry), es[j]? = some e → e.idx = j

/-- Parent references point to earlier entries. -/
def ParentLt (es : List TaskEntry) : Prop :=
  ∀ e ∈ es, ∀ p, e.parent = some p → p < e.idx

/-- Every live stack slot names the most recent task of its level. -/
def StackOk (st : ParseState) : Prop :=
  ∀ j i, st.stack.getD j none = some i → MostRecentAtLevel st.es j i

def Inv (st : ParseState) : Prop :=
  IdxOk st.es ∧ ParentLt st.es ∧ StackOk st

theorem idx_lt_of_mem {es : List TaskEntry} (hidx : IdxOk es) :
    ∀ e ∈ es, e.idx < es.length := by
  intro e he
  obtain ⟨j, hj, hje⟩ := List.getElem_of_mem he
  have : es[j]? = some e := by
    rw [List.getElem?_eq_getElem hj, hje]
  rw [hidx j e this]
  exact hj

theorem getElem?_some_lt {α : Type} {l : List α} {n : Nat} {a : α}
    (h : l[n]? = some a) : n < l.length :=
  (List.getElem?_eq_some.mp h).1

theorem parentFor_cases (stack : List (Option Nat)) (k : Nat) :
    (∃ p, parentFor stack k = some p ∧ stack.getD (k - 1) none = some p)
    ∨ (stack.getD (k - 1) none = none ∧ parentFor stack k = walkDown stack (k - 1)) := by
  unfold parentFor
  cases hs : stack.getD (k - 1) none with
  | some p => exact Or.inl ⟨p, rfl, rfl⟩
  | none => exact Or.inr ⟨rfl, rfl⟩

theorem append_inv (st : ParseState) (e : TaskEntry) (k : Nat)
    (hidx : IdxOk st.es) (hpar : ParentLt st.es) (hstk : StackOk st)
    (heidx : e.idx = st.es.length) (helevel : e.level = k)
    (hepar : e.parent = (if k == 0 then none else parentFor st.stack k)) :
    Inv ⟨st.es ++ [e], newStackAfter st.stack k st.es.length⟩ := by
  have hparsome : ∀ p, e.parent = some p → p < st.es.length := by
    intro p hp
    rw [hepar] at hp
    by_cases hk0 : (k == 0) = true
    · rw [if_pos hk0] at hp
      exact Option.noConfusion hp
    · rw [if_neg hk0] at hp
      have hsome : ∃ j, st.stack.getD j none = some p := by
        rcases parentFor_cases st.stack k with ⟨p2, hpf, hslot⟩ | ⟨hslot, hpf⟩
        · rw [hpf] at hp
          simp at hp
          subst hp
          exact ⟨k - 1, hslot⟩
        · rw [hpf] at hp
          obtain ⟨j, _, hjs⟩ := walkDown_some st.stack (k - 1) p hp
          exact ⟨j, hjs⟩
      obtain ⟨j, hjs⟩ := hsome
      obtain ⟨e0, he0, _, _⟩ := hstk j p hjs
      exact getElem?_some_lt he0
  refine ⟨?_, ?_, ?_⟩
  · intro j e2 hj
    by_cases hlt : j < st.es.length
    · rw [List.getElem?_append, if_pos hlt] at hj
      exact hidx j e2 hj
    · rw [List.getElem?_append, if_neg hlt] at hj
      cases hd : j - st.es.length with
      | zero =>
        rw [hd] at hj
        simp at hj
        subst hj
        rw [heidx]
        omega
      | succ d =>
        rw [hd] at hj
        simp at hj
  · intro e2 he2 p hp
    rcases List.mem_append.mp he2 with h2 | h2
    · exact hpar e2 h2 p hp
    · simp at h2
      subst h2
      rw [heidx]
      exact hparsome p hp
  · intro j i2 hslot
    have hgd : (newStackAfter st.stack k st.es.length).getD j none
        = if j = k then some st.es.length else if j < k then st.stack.getD j none else none :=
      newStackAfter_getD st.stack k st.es.length j
    rw [hgd] at hslot
    by_cases hjk : j = k
    · rw [if_pos hjk] at hslot
      simp at hslot
      subst hslot
      refine ⟨e, ?_, by rw [helevel, hjk], ?_⟩
      · rw [List.getElem?_append, if_neg (by omega)]
        simp
      · intro e2 he2 hl2
        rcases List.mem_append.mp he2 with h2 | h2
        · exact le_of_lt (idx_lt_of_mem hidx e2 h2)
        · simp at h2
          subst h2
          rw [heidx]
    · rw [if_neg hjk] at hslot
      by_cases hjlt : j < k
      · rw [if_pos hjlt] at hslot
        obtain ⟨e0, he0, hlev, hmost⟩ := hstk j i2 hslot
        refine ⟨e0, ?_, hlev, ?_⟩
        · rw [List.getElem?_append, if_pos (getElem?_some_lt he0)]
          exact he0
        · intro e2 he2 hl2
          rcases List.mem_append.mp he2 with h2 | h2
          · exact hmost e2 h2 hl2
          · simp at h2
            subst h2
            rw [helevel] at hl2
            omega
      · rw [if_neg hjlt] at hslot
        exact Option.noConfusion hslot

theorem parseLine_inv (st : ParseState) (i : Nat) (line : List Char)
    (hinv : Inv st) : Inv (parseLine st i line) := by
  obtain ⟨hidx, hpar, hstk⟩ := hinv
  unfold parseLine
  cases hm : matchCheckbox line with
  | none => exact ⟨hidx, hpar, hstk⟩
  | some tpl =>
    obtain ⟨w, m, ti⟩ := tpl
    exact append_inv st _ (w / 2) hidx hpar hstk rfl rfl rfl

theorem initState_inv : Inv initState := by
  refine ⟨?_, ?_, ?_⟩
  · intro j e hj
    simp [initState] at hj
  · intro e he
    simp [initState] at he
  · intro j i hs
    have hnone : (([none] : List (Option Nat)).getD j none) = none := by
      cases j with
      | zero => rfl
      | succ d => rfl
    rw [show initState.stack = [none] from rfl] at hs
    rw [hnone] at hs
    exact Option.noConfusion hs

theorem parseLines_inv : ∀ (ls : List (List Char)) (i : Nat) (st : ParseState),
    Inv st → Inv (parseLines ls i st) := by
  intro ls
  induction ls with
  | nil => intro i st h; exact h
  | cons l ls2 ih => intro i st h; exact ih (i + 1) _ (parseLine_inv st i l h)

theorem countTasks_cons (t : Task) (l : List Task) :
    countTasks (t :: l) = 1 + countTasks t.subtasks + countTasks l := by
  cases t with
  | mk i ti c ln subs => simp [countTasks, Task.subtasks]

theorem countTasks_partition (q : (Option Nat × Task) → Bool) :
    ∀ (l : List (Option Nat × Task)),
    countTasks ((l.filter q).map Prod.snd)
      + countTasks ((l.filter (fun x => !q x)).map Prod.snd)
      = countTasks (l.map Prod.snd) := by
  intro l
  induction l with
  | nil => simp [countTasks]
  | cons x l2 ih =>
    by_cases hq : q x = true
    · rw [List.filter_cons_of_pos hq, List.filter_cons_of_neg (by simp [hq])]
      simp only [List.map_cons]
      rw [countTasks_cons, countTasks_cons]
      omega
    · rw [List.filter_cons_of_neg (by simp [hq]), List.filter_cons_of_pos (by simp [hq])]
      simp only [List.map_cons]
      rw [countTasks_cons, countTasks_cons]
      omega

theorem buildStep_count (e : TaskEntry) (p : List (Option Nat × Task)) :
    countTasks ((buildStep e p).map Prod.snd) = 1 + countTasks (p.map Prod.snd) := by
  unfold buildStep
  simp only [List.map_cons]
  rw [countTasks_cons]
  have hpart := countTasks_partition (fun pr => pr.1 == some e.idx) p
  have hsubs : (Task.mk e.idx e.title e.completed e.lineNumber
      ((p.filter (fun pr => pr.1 == some e.idx)).map Prod.snd)).subtasks
      = (p.filter (fun pr => pr.1 == some e.idx)).map Prod.snd := rfl
  rw [hsubs]
  omega

theorem buildPending_count : ∀ (es : List TaskEntry),
    countTasks ((buildPending es).map Prod.snd) = es.length := by
  intro es
  induction es with
  | nil => simp [buildPending, countTasks]
  | cons e0 rest ih =>
    have hstep : buildPending (e0 :: rest) = buildStep e0 (buildPending rest) := rfl
    rw [hstep, buildStep_count, ih]
    simp
    omega

/-- Entry indices are consecutive positions starting at b. -/
def IndexedFrom (b : Nat) (es : List TaskEntry) : Prop :=
  ∀ (j : Nat) (e : TaskEntry), es[j]? = some e → e.idx = b + j

theorem indexedFrom_cons {b : Nat} {e0 : TaskEntry} {rest : List TaskEntry}
    (h : IndexedFrom b (e0 :: rest)) : e0.idx = b ∧ IndexedFrom (b + 1) rest := by
  constructor
  · have := h 0 e0 (by simp)
    omega
  · intro j e hj
    have := h (j + 1) e (by simpa using hj)
    omega

theorem buildPending_parents : ∀ (es : List TaskEntry) (b : Nat),
    IndexedFrom b es → ParentLt es →
    ∀ pr ∈ buildPending es, pr.1 = none ∨ ∃ p, pr.1 = some p ∧ p < b := by
  intro es
  induction es with
  | nil =>
    intro b _ _ pr hpr
    simp [buildPending] at hpr
  | cons e0 rest ih =>
    intro b hind hpar pr hpr
    obtain ⟨hb, hind2⟩ := indexedFrom_cons hind
    have hstep : buildPending (e0 :: rest) = buildStep e0 (buildPending rest) := rfl
    rw [hstep] at hpr
    unfold buildStep at hpr
    rcases List.mem_cons.mp hpr with rfl | htail
    · cases hp : e0.parent with
      | none => exact Or.inl rfl
      | some p =>
        right
        refine ⟨p, rfl, ?_⟩
        have := hpar e0 (by simp) p hp
        omega
    · have hmem := List.mem_filter.mp htail
      have hne : pr.1 ≠ some b := by
        intro hcontra
        have := hmem.2
        rw [hcontra, hb] at this
        simp at this
      rcases ih (b + 1) hind2 (fun e he => hpar e (List.mem_cons_of_mem e0 he)) pr hmem.1
        with h | ⟨p, hp, hplt⟩
      · exact Or.inl h
      · right
        refine ⟨p, hp, ?_⟩
        have : p ≠ b := by
          intro hc
          subst hc
          exact hne hp
        omega

theorem buildForest_count (es : List TaskEntry)
    (hind : IndexedFrom 0 es) (hpar : ParentLt es) :
    countTasks (buildForest es) = es.length := by
  have hall : ∀ pr ∈ buildPending es, pr.1 = none := by
    intro pr hpr
    rcases buildPending_parents es 0 hind hpar pr hpr with h | ⟨p, _, hp⟩
    · exact h
    · omega
  unfold buildForest
  rw [List.filter_eq_self.mpr (by intro pr hpr; simp [hall pr hpr])]
  exact buildPending_count es

theorem parseLine_es_length (st : ParseState) (i : Nat) (line : List Char) :
    (parseLine st i line).es.length
      = st.es.length + (if (matchCheckbox line).isSome then 1 else 0) := by
  unfold parseLine
  cases hm : matchCheckbox line with
  | none => simp
  | some tpl =>
    obtain ⟨w, m, ti⟩ := tpl
    simp

theorem parseLines_es_length : ∀ (ls : List (List Char)) (i : Nat) (st : ParseState),
    (parseLines ls i st).es.length
      = st.es.length + ls.countP (fun l => (matchCheckbox l).isSome) := by
  intro ls
  induction ls with
  | nil => intro i st; simp [parseLines]
  | cons l ls2 ih =>
    intro i st
    have hcp : (l :: ls2).countP (fun l2 => (matchCheckbox l2).isSome)
        = ls2.countP (fun l2 => (matchCheckbox l2).isSome)
          + (if (matchCheckbox l).isSome then 1 else 0) := by
      rw [List.countP_cons]
    show (parseLines ls2 (i + 1) (parseLine st i l)).es.length = _
    rw [ih (i + 1) (parseLine st i l), parseLine_es_length, hcp]
    omega

theorem parseLines_take_succ : ∀ (ls : List (List Char)) (m i : Nat) (st : ParseState),
    m < ls.length →
    parseLines (ls.take (m + 1)) i st
      = parseLine (parseLines (ls.take m) i st) (i + m) (ls.getD m []) := by
  intro ls
  induction ls with
  | nil => intro m i st hm; simp at hm
  | cons l ls2 ih =>
    intro m i st hm
    cases m with
    | zero => rfl
    | succ m2 =>
      show parseLines (ls2.take (m2 + 1)) (i + 1) (parseLine st i l)
        = parseLine (parseLines (ls2.take m2) (i + 1) (parseLine st i l))
            (i + (m2 + 1)) (ls2.getD m2 [])
      rw [ih m2 (i + 1) (parseLine st i l) (by simpa using hm)]
      rw [show (i + 1) + m2 = i + (m2 + 1) from by omega]

theorem stateAt_succ (content : List Char) (m : Nat)
    (hm : m < (splitOnChar '\n' content).length) :
    stateAt content (m + 1)
      = parseLine (stateAt content m) m ((splitOnChar '\n' content).getD m []) := by
  unfold stateAt
  rw [parseLines_take_succ _ m 0 initState hm, Nat.zero_add]

theorem stateAt_inv (content : List Char) (m : Nat) : Inv (stateAt content m) :=
  parseLines_inv _ 0 initState initState_inv

/-- Claim C1: every checkbox line receives indent level floor(width/2); a
nested line is attached as a child of the entry in stack slot level-1,
which is always the most recently parsed task of that indent depth; when
that slot is null the parser walks the shallower slots and attaches to the
first live one (again the most recent task of its depth); when every
shallower slot is null the line becomes a new root; and no matching line
is ever dropped: the reconstructed forest holds exactly one task per
matching line. -/
theorem parseTasks_nesting (content : List Char) :
    countTasks (parseTasksFromContent content)
      = (splitOnChar '\n' content).countP (fun l => (matchCheckbox l).isSome)
    ∧ ∀ (m w : Nat) (mc : Char) (ti : List Char),
        m < (splitOnChar '\n' content).length →
        matchCheckbox ((splitOnChar '\n' content).getD m []) = some (w, mc, ti) →
        ∃ e : TaskEntry,
          (stateAt content (m + 1)).es = (stateAt content m).es ++ [e]
          ∧ e.level = w / 2 ∧ e.lineNumber = m + 1
          ∧ e.completed = (mc == 'x' || mc == 'X')
          ∧ (w / 2 = 0 → e.parent = none)
          ∧ (∀ p, 1 ≤ w / 2 →
               (stateAt content m).stack.getD (w / 2 - 1) none = some p →
               e.parent = some p ∧ MostRecentAtLevel (stateAt content m).es (w / 2 - 1) p)
          ∧ (∀ j q, 1 ≤ w / 2 →
               (stateAt content m).stack.getD (w / 2 - 1) none = none →
               j < w / 2 - 1 → (stateAt content m).stack.getD j none = some q →
               (∀ j2, j < j2 → j2 < w / 2 - 1 →
                 (stateAt content m).stack.getD j2 none = none) →
               e.parent = some q ∧ MostRecentAtLevel (stateAt content m).es j q)
          ∧ (1 ≤ w / 2 →
               (∀ j, j < w / 2 → (stateAt content m).stack.getD j none = none) →
               e.parent = none) := by
  constructor
  · obtain ⟨hidx, hpar, _⟩ :=
      parseLines_inv (splitOnChar '\n' content) 0 initState initState_inv
    have hind : IndexedFrom 0 (parseEntries content) := by
      intro j e hj
      have := hidx j e hj
      omega
    rw [show parseTasksFromContent content = buildForest (parseEntries content) from rfl]
    rw [buildForest_count (parseEntries content) hind hpar]
    show (parseLines (splitOnChar '\n' content) 0 initState).es.length = _
    rw [parseLines_es_length]
    simp [initState]
  · intro m w mc ti hm hmc
    have hstep := stateAt_succ content m hm
    set st := stateAt content m with hst
    have hpl : parseLine st m ((splitOnChar '\n' content).getD m [])
        = ParseState.mk
            (st.es ++ [TaskEntry.mk st.es.length (jsTrim ti) (mc == 'x' || mc == 'X')
              (m + 1) (w / 2) (if w / 2 == 0 then none else parentFor st.stack (w / 2))])
            (newStackAfter st.stack (w / 2) st.es.length) := by
      unfold parseLine
      rw [hmc]
    obtain ⟨-, -, hstk⟩ := stateAt_inv content m
    refine ⟨TaskEntry.mk st.es.length (jsTrim ti) (mc == 'x' || mc == 'X')
        (m + 1) (w / 2) (if w / 2 == 0 then none else parentFor st.stack (w / 2)),
      ?_, rfl, rfl, rfl, ?_, ?_, ?_, ?_⟩
    · rw [hstep, hpl]
    · intro hk0
      show (if w / 2 == 0 then none else parentFor st.stack (w / 2)) = none
      simp [hk0]
    · intro p hk1 hslot
      have hne0 : (w / 2 == 0) = false := by
        simp only [beq_eq_false_iff_ne, ne_eq]
        omega
      constructor
      · show (if w / 2 == 0 then none else parentFor st.stack (w / 2)) = some p
        rw [hne0]
        simp only [Bool.false_eq_true, if_false]
        unfold parentFor
        rw [hslot]
      · exact hstk (w / 2 - 1) p hslot
    · intro j q hk1 hslotnone hj hjs hbet
      have hne0 : (w / 2 == 0) = false := by
        simp only [beq_eq_false_iff_ne, ne_eq]
        omega
      constructor
      · show (if w / 2 == 0 then none else parentFor st.stack (w / 2)) = some q
        rw [hne0]
        simp only [Bool.false_eq_true, if_false]
        unfold parentFor
        rw [hslotnone]
        exact walkDown_eq_some_of st.stack (w / 2 - 1) j q hj hjs hbet
      · exact hstk j q hjs
    · intro hk1 hall
      have hne0 : (w / 2 == 0) = false := by
        simp only [beq_eq_false_iff_ne, ne_eq]
        omega
      show (if w / 2 == 0 then none else parentFor st.stack (w / 2)) = none
      rw [hne0]
      simp only [Bool.false_eq_true, if_false]
      unfold parentFor
      rw [hall (w / 2 - 1) (by omega)]
      exact (walkDown_none_iff st.stack (w / 2 - 1)).mpr (fun j2 hj2 => hall j2 (by omega))

/-- Witness for C1: the second line of a two-line text with an indent jump
(four spaces under a root) matches with width 4, and the per-line
attachment discipline holds there. -/
theorem parseTasks_nesting_witness :
    ∃ e : TaskEntry,
      (stateAt ("- [ ] A\n    - [ ] B".toList) (1 + 1)).es
        = (stateAt ("- [ ] A\n    - [ ] B".toList) 1).es ++ [e]
      ∧ e.level = 4 / 2 ∧ e.lineNumber = 1 + 1
      ∧ e.completed = (' ' == 'x' || ' ' == 'X')
      ∧ (4 / 2 = 0 → e.parent = none)
      ∧ (∀ p, 1 ≤ 4 / 2 →
           (stateAt ("- [ ] A\n    - [ ] B".toList) 1).stack.getD (4 / 2 - 1) none = some p →
           e.parent = some p
           ∧ MostRecentAtLevel (stateAt ("- [ ] A\n    - [ ] B".toList) 1).es (4 / 2 - 1) p)
      ∧ (∀ j q, 1 ≤ 4 / 2 →
           (stateAt ("- [ ] A\n    - [ ] B".toList) 1).stack.getD (4 / 2 - 1) none = none →
           j < 4 / 2 - 1 →
           (stateAt ("- [ ] A\n    - [ ] B".toList) 1).stack.getD j none = some q →
           (∀ j2, j < j2 → j2 < 4 / 2 - 1 →
             (stateAt ("- [ ] A\n    - [ ] B".toList) 1).stack.getD j2 none = none) →
           e.parent = some q
           ∧ MostRecentAtLevel (stateAt ("- [ ] A\n    - [ ] B".toList) 1).es j q)
      ∧ (1 ≤ 4 / 2 →
           (∀ j, j < 4 / 2 →
             (stateAt ("- [ ] A\n    - [ ] B".toList) 1).stack.getD j none = none) →
           e.parent = none) :=
  (parseTasks_nesting ("- [ ] A\n    - [ ] B".toList)).2 1 4 ' ' ("B".toList)
    (by decide) (by decide)

end Specky
